import Mathlib

/-!
# Chunked file signature: argument handling, chunk reader, executor and ordering pipeline

A shallow embedding of `signature.h`, `execution.h` and `main.cpp`.

* `std::string` is `String` (argument text) or `List Byte` (file content and chunks).
* `size_t` is a natural number below `2 ^ 64`, `int` an integer in `[INT_MIN, INT_MAX]`;
  conversions between the two are written out (`toSizeT`, `toInt32`).
* A C++ exception is the `error` case of `Except`.
* Threads are modelled by labelled transition systems: a state, a type of actions (one
  per atomic step of one thread) and a function giving the successor state of an enabled
  action. A schedule is a list of actions.
-/

deriving instance DecidableEq for Except

namespace signature

/-! ## Machine integers -/

/-- The constant `Params::kMBtoBytes = 1024uLL * 1024uLL`. -/
def kMBtoBytes : Nat := 1024 * 1024

/-- Number of values of `size_t` on the 64-bit target. -/
def SIZE_MOD : Nat := 2 ^ 64

/-- Largest `int`. -/
def INT_MAX : Int := 2147483647

/-- Smallest `int`. -/
def INT_MIN : Int := -2147483648

/-- Conversion `int → size_t` (value modulo `2 ^ 64`). -/
def toSizeT (i : Int) : Nat := (i % (SIZE_MOD : Int)).toNat

/-- Narrowing conversion `size_t → int` (value modulo `2 ^ 32`, two's complement). -/
def toInt32 (x : Nat) : Int :=
  let m : Nat := x % 2 ^ 32
  if m < 2 ^ 31 then (m : Int) else (m : Int) - 2 ^ 32

/-! ## `std::stoi` -/

/-- The two exceptions `std::stoi` throws. -/
inductive StoiError where
  | invalid_argument
  | out_of_range
  deriving DecidableEq, Repr

/-- C locale `isspace`: space, `\t`, `\n`, `\v`, `\f`, `\r`. -/
def isspace (c : Char) : Bool :=
  c.toNat == 32 || (9 ≤ c.toNat && c.toNat ≤ 13)

/-- C locale `isdigit`. -/
def isdigit (c : Char) : Bool :=
  48 ≤ c.toNat && c.toNat ≤ 57

/-- Leading white space is skipped by `strtol`. -/
def skipSpace : List Char → List Char
  | [] => []
  | c :: cs => if isspace c then skipSpace cs else c :: cs

/-- Digit loop of `strtol` in base 10: the accumulated value and the number of digits
consumed; it stops at the first character that is not a digit. -/
def strtolDigits : List Char → Nat → Nat → Nat × Nat
  | [], acc, k => (acc, k)
  | c :: cs, acc, k =>
    if isdigit c then strtolDigits cs (acc * 10 + (c.toNat - 48)) (k + 1) else (acc, k)

/-- Base-10 `strtol`: white space, an optional sign, then digits. `none` when no
conversion is performed (the end pointer equals the start pointer), otherwise the
mathematical value of the digits read (the range check is done by `stoi`). -/
def strtol (s : List Char) : Option Int :=
  match skipSpace s with
  | [] => none
  | c :: cs =>
    if c = '-' then
      let r := strtolDigits cs 0 0
      if r.2 = 0 then none else some (-(r.1 : Int))
    else if c = '+' then
      let r := strtolDigits cs 0 0
      if r.2 = 0 then none else some (r.1 : Int)
    else
      let r := strtolDigits (c :: cs) 0 0
      if r.2 = 0 then none else some (r.1 : Int)

/-- Embedding of `std::stoi(str)`: `invalid_argument` when `strtol` converts nothing, `out_of_range`
when the value does not fit in `int` (a value outside `long` is outside `int` as well),
else the value. Characters after the number are ignored. -/
def stoi (s : String) : Except StoiError Int :=
  match strtol s.data with
  | none => .error .invalid_argument
  | some v => if v < INT_MIN ∨ INT_MAX < v then .error .out_of_range else .ok v

/-! ## `Params` and `ParseArguments` -/

/-- The record `struct Params`. -/
structure Params where
  input_file_name : String := ""
  output_file_name : String := ""
  batchSize : Nat := 1 * kMBtoBytes
  is_success : Bool := false
  error_message : String := ""
  deriving DecidableEq, Repr

/-- The diagnostic for a wrong number of arguments. -/
def usage_message : String :=
  "Error: wrong number of arguments.\nUse this syntax: <input file> <output file> <block size>(default 1Mb)"

/-- The diagnostic for a block size outside `[1, 4000]`. -/
def blocksize_message : String :=
  "Error: Wrong blocksize. :(\nPlease set another one...\n"

/-- Embedding of `ParseArguments(argc, argv)`; `argv[i]` is `argv.getD i ""`. -/
def ParseArguments (argc : Int) (argv : List String) : Params :=
  let params : Params := {}
  if argc = 3 then
    { params with
      input_file_name := argv.getD 1 ""
      output_file_name := argv.getD 2 ""
      is_success := true }
  else if argc = 4 then
    match stoi (argv.getD 3 "") with
    | .error _ =>
      { params with error_message := "Bad batch size input: " ++ argv.getD 3 "" }
    | .ok v =>
      let input_batch_size := toSizeT v
      if input_batch_size < 1 ∨ input_batch_size > 4000 then
        { params with error_message := blocksize_message }
      else
        { params with
          batchSize := (input_batch_size * kMBtoBytes) % SIZE_MOD
          input_file_name := argv.getD 1 ""
          output_file_name := argv.getD 2 ""
          is_success := true }
  else
    { params with error_message := usage_message }

end signature

namespace Main

/-- What `main` does: it either returns a status after writing to `std::cerr`, without
calling `CalculateSignature`, or it calls `CalculateSignature(params)`. -/
inductive Outcome where
  | exited (status : Int) (cerr : String)
  | calculate (params : signature.Params)
  deriving DecidableEq, Repr

/-- Embedding of `main(argc, argv)` up to the call of `CalculateSignature`. -/
def main (argc : Int) (argv : List String) : Outcome :=
  let params := signature.ParseArguments argc argv
  if !params.is_success then
    .exited (-1) (params.error_message ++ "\n")
  else
    .calculate params

end Main

namespace signature

/-! ## `Reader` and the read loop of `CalculateSignature` -/

/-- One `char` of a file or chunk. -/
abbrev Byte := Fin 256

/-- The part of a `std::ifstream` the reader uses, for a binary file that is read without
I/O faults (`badbit` is never set): the file content, the read position, `eofbit`,
`failbit` and the count of the last unformatted read. -/
structure IStream where
  content : List Byte
  pos : Nat
  eofbit : Bool
  failbit : Bool
  gcount : Nat
  deriving DecidableEq, Repr

/-- The test `good()`: no state bit is set. -/
def IStream.good (s : IStream) : Bool := !s.eofbit && !s.failbit

/-- Embedding of `read(buf, n)`: when the stream is not good the sentry fails, `failbit` is set and
nothing is extracted; otherwise up to `n` characters are extracted, and reaching the end of
the file before `n` characters sets `eofbit` and `failbit`. Returns the stream and the
characters stored at the start of `buf`. -/
def IStream.read (s : IStream) (n : Nat) : IStream × List Byte :=
  if s.good then
    let got := (s.content.drop s.pos).take n
    if got.length < n then
      ({ s with pos := s.pos + got.length, eofbit := true, failbit := true,
                gcount := got.length }, got)
    else
      ({ s with pos := s.pos + got.length, gcount := got.length }, got)
  else
    ({ s with failbit := true, gcount := 0 }, [])

/-- The state of `class Reader`. -/
structure Reader where
  buffer_size_ : Int
  input_stream_ : IStream
  buffer_ : List Byte
  deriving DecidableEq, Repr

/-- Embedding of `Reader::Reader(file_name, buffer_size)`; `file` is the content of the named
file, or `none` when it cannot be opened. -/
def Reader.new (file : Option (List Byte)) (buffer_size : Int) : Except String Reader :=
  match file with
  | none => .error "No file."
  | some content =>
    .ok { buffer_size_ := buffer_size
          input_stream_ := { content := content, pos := 0, eofbit := false, failbit := false,
                             gcount := 0 }
          buffer_ := [] }

/-- Embedding of `Reader::ReadChunk`. `buffer_.assign(buffer_size_, 0)` converts the `int` to
`size_t`; a negative size becomes a count above `max_size()`, `assign` throws and the handler
rethrows. Otherwise the buffer is `buffer_size_` zero bytes, `read` overwrites its first
`gcount()` bytes, and the result is `gcount() > 0`. -/
def Reader.ReadChunk (r : Reader) : Except String (Bool × Reader) :=
  if r.buffer_size_ < 0 then
    .error "Can not allocate memory for a new batch..."
  else
    let n := r.buffer_size_.toNat
    let zeros : List Byte := List.replicate n 0
    let res := r.input_stream_.read n
    let buffer := res.2 ++ zeros.drop res.2.length
    .ok (decide (res.1.gcount > 0), { r with input_stream_ := res.1, buffer_ := buffer })

/-- Embedding of `Reader::GetChunk`: the whole buffer is moved out. -/
def Reader.GetChunk (r : Reader) : List Byte × Reader :=
  (r.buffer_, { r with buffer_ := [] })

/-- The state of `class HashingTask` (the data members). -/
structure HashingTask where
  hash_value_ : Nat := 0
  bucket_ : List Byte
  deriving DecidableEq, Repr

/-- Embedding of `HashingTask::Run`, for a hash function `hash` standing for
`std::hash<std::string>`. -/
def HashingTask.Run (hash : List Byte → Nat) (t : HashingTask) : HashingTask :=
  { hash_value_ := hash t.bucket_, bucket_ := [] }

/-- The loop `while (reader.ReadChunk()) { ... }` of `CalculateSignature`: the buckets of
the hashing tasks created and submitted, in order, each paired with one writing task.
`none` when `fuel` iterations do not reach the end of the loop. -/
def readLoop : Nat → Reader → Option (Except String (List HashingTask))
  | 0, _ => none
  | fuel + 1, r =>
    match r.ReadChunk with
    | .error e => some (.error e)
    | .ok (false, _) => some (.ok [])
    | .ok (true, r1) =>
      let hashing_task : HashingTask := { bucket_ := r1.GetChunk.1 }
      (readLoop fuel r1.GetChunk.2).map (Except.map (hashing_task :: ·))

/-- Embedding of `CalculateSignature(params)` on the calling thread: the reader is constructed with
`params.batchSize` narrowed to `int`, then the loop runs. -/
def CalculateSignature (fuel : Nat) (file : Option (List Byte)) (params : Params) :
    Option (Except String (List HashingTask)) :=
  match Reader.new file (toInt32 params.batchSize) with
  | .error e => some (.error e)
  | .ok reader => readLoop fuel reader

/-- The `i`-th `c`-byte slice of the input, shorter than `c` at the end of the input. -/
def inputSlice (input : List Byte) (c i : Nat) : List Byte :=
  (input.drop (i * c)).take c

/-- A byte string filled up with zero bytes to `c` bytes. -/
def padTo (c : Nat) (l : List Byte) : List Byte :=
  l ++ List.replicate (c - l.length) 0

/-- The `i`-th slice filled up with zero bytes to `c` bytes. -/
def paddedSlice (input : List Byte) (c i : Nat) : List Byte :=
  padTo c (inputSlice input c i)

end signature

namespace execution

/-! ## `Task::Wait` against `Task::SetFinished` -/

/-- Where a thread that called `Task::Wait` stands. -/
inductive WaitPc where
  /-- Before `std::unique_lock<std::mutex> guard(mutex_)`. -/
  | start
  /-- Holds `mutex_`, about to evaluate `!is_finished_.load()`. -/
  | locked
  /-- Has read `false`, holds `mutex_`, about to call `is_finished_cond_.wait(guard)`. -/
  | toWait
  /-- Inside `wait`: `mutex_` released, blocked until a notification. -/
  | blocked
  /-- Unblocked inside `wait`, about to reacquire `mutex_`. -/
  | woken
  /-- The call of `Wait` has returned (the guard released `mutex_`). -/
  | returned
  deriving DecidableEq, Repr

/-- Where the thread that calls `Task::SetFinished` stands. -/
inductive SetPc where
  /-- Before `is_finished_.store(true)`. -/
  | before
  /-- After the store, before `is_finished_cond_.notify_all()`. -/
  | stored
  /-- After `notify_all`. -/
  | notified
  deriving DecidableEq, Repr

/-- One `Task` with the threads inside `Wait` and the thread running `SetFinished`. -/
structure TaskState where
  is_finished_ : Bool
  /-- The waiter that holds `mutex_`, if any. `SetFinished` never takes it. -/
  mutex_ : Option Nat
  waiters : List WaitPc
  setter : SetPc
  deriving DecidableEq, Repr

/-- The atomic steps of `Wait` (per waiter) and of `SetFinished`. -/
inductive TaskAction where
  | lock (i : Nat)
  | test (i : Nat)
  | wait (i : Nat)
  | reacquire (i : Nat)
  /-- The waiter leaves `wait` without a notification, which a condition variable may do. -/
  | spurious (i : Nat)
  | store
  | notify_all
  deriving DecidableEq, Repr

/-- A task that is not finished, with `n` threads about to call `Wait`. -/
def TaskState.init (n : Nat) : TaskState :=
  { is_finished_ := false, mutex_ := none, waiters := List.replicate n .start, setter := .before }

/-- The successor state of an enabled action, `none` when the action is not enabled. -/
def TaskState.step (s : TaskState) : TaskAction → Option TaskState
  | .lock i =>
    if s.waiters[i]? = some .start ∧ s.mutex_ = none then
      some { s with waiters := s.waiters.set i .locked, mutex_ := some i }
    else none
  | .test i =>
    if s.waiters[i]? = some .locked then
      if s.is_finished_ then
        some { s with waiters := s.waiters.set i .returned, mutex_ := none }
      else
        some { s with waiters := s.waiters.set i .toWait }
    else none
  | .wait i =>
    if s.waiters[i]? = some .toWait then
      some { s with waiters := s.waiters.set i .blocked, mutex_ := none }
    else none
  | .reacquire i =>
    if s.waiters[i]? = some .woken ∧ s.mutex_ = none then
      some { s with waiters := s.waiters.set i .locked, mutex_ := some i }
    else none
  | .spurious i =>
    if s.waiters[i]? = some .blocked then
      some { s with waiters := s.waiters.set i .woken }
    else none
  | .store =>
    if s.setter = .before then
      some { s with is_finished_ := true, setter := .stored }
    else none
  | .notify_all =>
    if s.setter = .stored then
      some { s with
        waiters := s.waiters.map (fun pc => if pc = .blocked then .woken else pc)
        setter := .notified }
    else none

/-- Runs a schedule; `none` when some action of it is not enabled. -/
def TaskState.run (s : TaskState) : List TaskAction → Option TaskState
  | [] => some s
  | a :: as => (s.step a).bind (fun s1 => s1.run as)

/-! ## The lifecycle of an `Executor`, seen from the thread that owns it -/

/-- How a call on the executor ends for the calling thread. -/
inductive Ending (α : Type) where
  | returns (a : α)
  /-- The call never returns. -/
  | blocks
  /-- A call of `std::thread::join` on a thread that is not joinable throws `std::system_error`. -/
  | throws
  /-- Destroying a joinable `std::thread` calls `std::terminate`. -/
  | terminates
  deriving DecidableEq, Repr

/-- The members of an `Executor` its owner acts on: `is_working_`, one joinable flag per
element of `threads_`, and the queue. The workers themselves are left out: a worker exits
its loop once `is_working_` is false and the queue is drained, and not before (see
`ExecState` for the workers). -/
structure Lifecycle where
  is_working_ : Bool
  joinable : List Bool
  tasks_ : List Nat
  deriving DecidableEq, Repr

/-- Embedding of `Executor(num_threads)`. -/
def Lifecycle.new (num_threads : Nat) : Lifecycle :=
  { is_working_ := true, joinable := List.replicate num_threads true, tasks_ := [] }

/-- Embedding of `Submit(task)`. -/
def Lifecycle.Submit (e : Lifecycle) (task : Nat) : Lifecycle :=
  { e with tasks_ := e.tasks_ ++ [task] }

/-- Embedding of `StartShutdown()`. -/
def Lifecycle.StartShutdown (e : Lifecycle) : Lifecycle :=
  { e with is_working_ := false }

/-- The loop `for (auto& thread : threads_) thread.join()`: a thread that is not joinable
makes `join` throw; the worker of a joinable thread ends only after shutdown was requested,
so `join` blocks for ever while `is_working_` is true. -/
def Lifecycle.joinAll (is_working : Bool) : List Bool → Ending (List Bool)
  | [] => .returns []
  | j :: rest =>
    if !j then .throws
    else if is_working then .blocks
    else
      match Lifecycle.joinAll is_working rest with
      | .returns r => .returns (false :: r)
      | .blocks => .blocks
      | .throws => .throws
      | .terminates => .terminates

/-- Embedding of `WaitShutdown()`: join every thread, then empty the queue. -/
def Lifecycle.WaitShutdown (e : Lifecycle) : Ending Lifecycle :=
  match Lifecycle.joinAll e.is_working_ e.joinable with
  | .returns r => .returns { e with joinable := r, tasks_ := [] }
  | .blocks => .blocks
  | .throws => .throws
  | .terminates => .terminates

/-- Embedding of `~Executor()` followed by the destruction of `threads_`: the body shuts down
and waits only when `is_working_` is still true; afterwards every `std::thread` is destroyed, which
terminates the program when one of them is still joinable. -/
def Lifecycle.destroy (e : Lifecycle) : Ending Lifecycle :=
  let body : Ending Lifecycle :=
    if e.is_working_ then e.StartShutdown.WaitShutdown else .returns e
  match body with
  | .returns e1 => if e1.joinable.any id then .terminates else .returns e1
  | .blocks => .blocks
  | .throws => .throws
  | .terminates => .terminates

/-- The calls an owner makes before the executor is destroyed. -/
inductive Call where
  | Submit (task : Nat)
  | StartShutdown
  | WaitShutdown
  deriving DecidableEq, Repr

/-- A history of calls, made one after the other by the owner. -/
def Lifecycle.calls (e : Lifecycle) : List Call → Ending Lifecycle
  | [] => .returns e
  | .Submit t :: rest => (e.Submit t).calls rest
  | .StartShutdown :: rest => e.StartShutdown.calls rest
  | .WaitShutdown :: rest =>
    match e.WaitShutdown with
    | .returns e1 => e1.calls rest
    | .blocks => .blocks
    | .throws => .throws
    | .terminates => .terminates

/-- A history of calls followed by the destruction of the executor. -/
def Lifecycle.lifetime (num_threads : Nat) (history : List Call) : Ending Lifecycle :=
  match (Lifecycle.new num_threads).calls history with
  | .returns e => e.destroy
  | .blocks => .blocks
  | .throws => .throws
  | .terminates => .terminates

/-! ## The workers of an `Executor` -/

/-- Where a worker thread stands in `Executor::Worker`. Every access to `tasks_` and every
write of `is_working_` happens with `mutex_` held, so a critical section of a worker (from
taking or retaking `mutex_` to `guard.unlock()`, to the `wait` or to the end of the
function) is one atomic step. -/
inductive WorkerPc where
  /-- About to take `mutex_` and test the loop conditions: at the start of the thread,
  after `guard.lock()`, or when leaving `que_not_empty_.wait(guard)`. -/
  | ready
  /-- Inside `que_not_empty_.wait(guard)`, `mutex_` released. -/
  | waiting
  /-- Has popped task `i` and unlocked, before `task_ptr->Run()`. -/
  | running (i : Nat)
  /-- After `task_ptr->Run()`, before `task_ptr->SetFinished()`. -/
  | ran (i : Nat)
  /-- Has left the outer loop; the thread function has returned. -/
  | exited
  deriving DecidableEq, Repr

/-- An `Executor` with its worker threads and the tasks submitted to it. Tasks are named
by their submission index; `runs[i]` counts the calls of `Run` on task `i` and
`finished[i]` is its `is_finished_`. -/
structure ExecState where
  is_working_ : Bool
  tasks_ : List Nat
  workers : List WorkerPc
  runs : List Nat
  finished : List Bool
  /-- The joins of `WaitShutdown` have returned. -/
  joined : Bool
  deriving DecidableEq, Repr

/-- Embedding of `Executor(num_threads)`: the threads are started, nothing is submitted. -/
def ExecState.init (num_threads : Nat) : ExecState :=
  { is_working_ := true, tasks_ := [], workers := List.replicate num_threads .ready,
    runs := [], finished := [], joined := false }

/-- Embedding of `que_not_empty_.notify_one()`: one waiting worker, chosen by the scheduler,
leaves its `wait`; with `none` nobody is waiting. -/
def notifyOne (workers : List WorkerPc) : Option Nat → Option (List WorkerPc)
  | some w => if workers[w]? = some .waiting then some (workers.set w .ready) else none
  | none => if WorkerPc.waiting ∈ workers then none else some workers

/-- Embedding of `que_not_empty_.notify_all()`: every waiting worker leaves its `wait`. -/
def notifyAll (workers : List WorkerPc) : List WorkerPc :=
  workers.map (fun pc => if pc = .waiting then .ready else pc)

/-- The calls of the owning thread. -/
inductive OwnerAction where
  | submit (notified : Option Nat)
  | startShutdown
  | waitShutdown
  deriving DecidableEq, Repr

/-- The steps of worker `w`. -/
inductive WorkerAction where
  /-- The critical section: loop tests, then exit, `wait`, or pop and unlock. -/
  | enter (w : Nat)
  /-- The worker leaves `wait` without a notification. -/
  | wake (w : Nat)
  /-- The call `task_ptr->Run()`. -/
  | run (w : Nat)
  /-- The call `task_ptr->SetFinished()`, followed by `guard.lock()`. -/
  | setFinished (w : Nat)
  deriving DecidableEq, Repr

/-- Embedding of `Submit(task)` for the next task, while the owner has not yet called
`StartShutdown`: the task is pushed and one waiting worker is notified. -/
def ExecState.Submit (s : ExecState) (notified : Option Nat) : Option ExecState :=
  if s.is_working_ then
    match notifyOne s.workers notified with
    | some ws =>
      some { s with tasks_ := s.tasks_ ++ [s.runs.length], runs := s.runs ++ [0],
                    finished := s.finished ++ [false], workers := ws }
    | none => none
  else none

/-- Embedding of `StartShutdown()`. -/
def ExecState.StartShutdown (s : ExecState) : ExecState :=
  { s with is_working_ := false, workers := notifyAll s.workers }

/-- Embedding of `WaitShutdown()` returning: every join has returned, which needs every worker
thread to have ended; the queue is then emptied. -/
def ExecState.WaitShutdown (s : ExecState) : Option ExecState :=
  if s.workers.all (fun pc => pc = .exited) ∧ s.joined = false then
    some { s with joined := true, tasks_ := [] }
  else none

/-- A call of the owner. -/
def ExecState.ownerStep (s : ExecState) : OwnerAction → Option ExecState
  | .submit notified => s.Submit notified
  | .startShutdown => some s.StartShutdown
  | .waitShutdown => s.WaitShutdown

/-- A step of `Executor::Worker`. In `enter` the worker holds `mutex_`: with an empty queue
it waits while `is_working_` is true and leaves the outer loop otherwise; with a task in
the queue it pops the front and unlocks. -/
def ExecState.workerStep (s : ExecState) : WorkerAction → Option ExecState
  | .enter w =>
    if s.workers[w]? = some .ready then
      match s.tasks_ with
      | [] =>
        if s.is_working_ then some { s with workers := s.workers.set w .waiting }
        else some { s with workers := s.workers.set w .exited }
      | i :: rest => some { s with tasks_ := rest, workers := s.workers.set w (.running i) }
    else none
  | .wake w =>
    if s.workers[w]? = some .waiting then some { s with workers := s.workers.set w .ready }
    else none
  | .run w =>
    match s.workers[w]? with
    | some (.running i) =>
      some { s with workers := s.workers.set w (.ran i),
                    runs := s.runs.set i (s.runs.getD i 0 + 1) }
    | _ => none
  | .setFinished w =>
    match s.workers[w]? with
    | some (.ran i) =>
      some { s with workers := s.workers.set w .ready, finished := s.finished.set i true }
    | _ => none

/-- A step of the owner or of a worker. -/
inductive ExecAction where
  | owner (a : OwnerAction)
  | worker (a : WorkerAction)
  deriving DecidableEq, Repr

/-- The successor state of an enabled action. -/
def ExecState.step (s : ExecState) : ExecAction → Option ExecState
  | .owner a => s.ownerStep a
  | .worker a => s.workerStep a

/-- Runs a schedule; `none` when some action of it is not enabled. -/
def ExecState.run (s : ExecState) : List ExecAction → Option ExecState
  | [] => some s
  | a :: as => (s.step a).bind (fun s1 => s1.run as)

/-- The action is a call of `Submit`. -/
def ExecAction.isSubmit : ExecAction → Bool
  | .owner (.submit _) => true
  | _ => false

/-- The number of tasks popped from the queue so far. -/
def ExecState.popped (s : ExecState) : Nat := s.runs.length - s.tasks_.length

/-- Worker `w` holds task `i`: it has popped it and not yet set it finished. -/
def holds (ws : List WorkerPc) (w i : Nat) : Prop :=
  ws[w]? = some (.running i) ∨ ws[w]? = some (.ran i)

/-- The invariant of the executor: the queue holds the tasks not yet popped, in submission
order; a popped task is held by exactly one worker or has been run once and is finished;
a worker has exited only after the shutdown request and with an empty queue. -/
structure ExecInv (s : ExecState) : Prop where
  nonempty : 0 < s.workers.length
  len : s.finished.length = s.runs.length
  qlen : s.tasks_.length ≤ s.runs.length
  queue : s.tasks_ = List.range' s.popped s.tasks_.length
  running : ∀ w i : Nat, s.workers[w]? = some (WorkerPc.running i) →
    i < s.popped ∧ s.runs[i]? = some 0 ∧ s.finished[i]? = some false
  ran : ∀ w i : Nat, s.workers[w]? = some (WorkerPc.ran i) →
    i < s.popped ∧ s.runs[i]? = some 1 ∧ s.finished[i]? = some false
  unique : ∀ w w' i : Nat, holds s.workers w i → holds s.workers w' i → w = w'
  popped : ∀ i : Nat, i < s.popped →
    (∃ w, holds s.workers w i) ∨ (s.runs[i]? = some 1 ∧ s.finished[i]? = some true)
  queued : ∀ i : Nat, s.popped ≤ i → i < s.runs.length →
    s.runs[i]? = some 0 ∧ s.finished[i]? = some false
  exited : ∀ w : Nat, s.workers[w]? = some WorkerPc.exited → s.is_working_ = false ∧ s.tasks_ = []
  joined : s.joined = true → ∀ w : Nat, w < s.workers.length → s.workers[w]? = some WorkerPc.exited

end execution

namespace signature

open execution

/-! ## The ordering pipeline of `CalculateSignature` -/

/-- The state of `CalculateSignature` with its two pools: `chunks` are the buckets the read loop
produces, in order; hashing task `i` and writing task `i` are created and submitted in
iteration `i`, and writing task `i` refers to hashing task `i`; `output` is the sequence of
digests passed to `Writer::WriteHash`. -/
structure Pipeline where
  chunks : List (List Byte)
  hashing_pool : ExecState
  writing_pool : ExecState
  hashing_tasks : List HashingTask
  output : List Nat
  deriving DecidableEq, Repr

/-- The state when the loop starts: `hashing_pool_size` workers for hashing, one worker for
writing. -/
def Pipeline.init (chunks : List (List Byte)) (hashing_pool_size : Nat) : Pipeline :=
  { chunks := chunks, hashing_pool := ExecState.init hashing_pool_size,
    writing_pool := ExecState.init 1, hashing_tasks := [], output := [] }

/-- The steps of the calling thread and of the workers of the two pools. -/
inductive PipelineAction where
  /-- The call `hashing_pool->Submit(hashing_task)` for the next chunk. -/
  | submitHashing (notified : Option Nat)
  /-- The call `writing_pool->Submit(writing_task)` for the chunk just submitted for hashing. -/
  | submitWriting (notified : Option Nat)
  /-- After the loop, `writing_pool` is destroyed first: `StartShutdown`. -/
  | shutdownWriting
  /-- The joins of the writing pool return. -/
  | joinWriting
  /-- Then `hashing_pool` is destroyed: `StartShutdown`. -/
  | shutdownHashing
  /-- The joins of the hashing pool return. -/
  | joinHashing
  /-- A step of a worker of the hashing pool. -/
  | hashing (a : WorkerAction)
  /-- A step of the worker of the writing pool. -/
  | writing (a : WorkerAction)
  deriving DecidableEq, Repr

/-- Worker `w` of the hashing pool calls `HashingTask::Run` on the task it holds. -/
def Pipeline.hashingRun (hash : List Byte → Nat) (p : Pipeline) (w : Nat) : Option Pipeline :=
  match p.hashing_pool.workers[w]?, p.hashing_pool.workerStep (.run w) with
  | some (.running i), some hp =>
    match p.hashing_tasks[i]? with
    | some t =>
      some { p with hashing_pool := hp, hashing_tasks := p.hashing_tasks.set i (t.Run hash) }
    | none => none
  | _, _ => none

/-- The worker of the writing pool calls `WritingTask::Run` on the task it holds:
`hashing_task_->Wait()` returns only when `is_finished_` of the paired hashing task is
true, then `GetHash()` is written. -/
def Pipeline.writingRun (p : Pipeline) (w : Nat) : Option Pipeline :=
  match p.writing_pool.workers[w]?, p.writing_pool.workerStep (.run w) with
  | some (.running i), some wp =>
    if p.hashing_pool.finished[i]? = some true then
      match p.hashing_tasks[i]? with
      | some t => some { p with writing_pool := wp, output := p.output ++ [t.hash_value_] }
      | none => none
    else none
  | _, _ => none

/-- The successor state of an enabled action. -/
def Pipeline.step (hash : List Byte → Nat) (p : Pipeline) : PipelineAction → Option Pipeline
  | .submitHashing notified =>
    if p.writing_pool.runs.length = p.hashing_tasks.length then
      match p.chunks[p.hashing_tasks.length]?, p.hashing_pool.Submit notified with
      | some chunk, some hp =>
        some { p with hashing_pool := hp,
                      hashing_tasks := p.hashing_tasks ++ [{ bucket_ := chunk }] }
      | _, _ => none
    else none
  | .submitWriting notified =>
    if p.writing_pool.runs.length < p.hashing_tasks.length then
      match p.writing_pool.Submit notified with
      | some wp => some { p with writing_pool := wp }
      | none => none
    else none
  | .shutdownWriting =>
    if p.hashing_tasks.length = p.chunks.length ∧
        p.writing_pool.runs.length = p.chunks.length then
      some { p with writing_pool := p.writing_pool.StartShutdown }
    else none
  | .joinWriting =>
    if p.writing_pool.is_working_ = false then
      match p.writing_pool.WaitShutdown with
      | some wp => some { p with writing_pool := wp }
      | none => none
    else none
  | .shutdownHashing =>
    if p.writing_pool.joined = true then
      some { p with hashing_pool := p.hashing_pool.StartShutdown }
    else none
  | .joinHashing =>
    if p.hashing_pool.is_working_ = false then
      match p.hashing_pool.WaitShutdown with
      | some hp => some { p with hashing_pool := hp }
      | none => none
    else none
  | .hashing (.run w) => p.hashingRun hash w
  | .hashing (.enter w) =>
    match p.hashing_pool.workerStep (.enter w) with
    | some hp => some { p with hashing_pool := hp }
    | none => none
  | .hashing (.wake w) =>
    match p.hashing_pool.workerStep (.wake w) with
    | some hp => some { p with hashing_pool := hp }
    | none => none
  | .hashing (.setFinished w) =>
    match p.hashing_pool.workerStep (.setFinished w) with
    | some hp => some { p with hashing_pool := hp }
    | none => none
  | .writing (.run w) => p.writingRun w
  | .writing (.enter w) =>
    match p.writing_pool.workerStep (.enter w) with
    | some wp => some { p with writing_pool := wp }
    | none => none
  | .writing (.wake w) =>
    match p.writing_pool.workerStep (.wake w) with
    | some wp => some { p with writing_pool := wp }
    | none => none
  | .writing (.setFinished w) =>
    match p.writing_pool.workerStep (.setFinished w) with
    | some wp => some { p with writing_pool := wp }
    | none => none

/-- Runs a schedule; `none` when some action of it is not enabled. -/
def Pipeline.run (hash : List Byte → Nat) (p : Pipeline) : List PipelineAction → Option Pipeline
  | [] => some p
  | a :: as => (p.step hash a).bind (fun p1 => p1.run hash as)

/-- The invariant of the pipeline: both pools satisfy the executor invariant, a hashing
task that was not run holds its chunk and one that was run holds the hash of its chunk,
the writing tasks that were run are those below `output.length`, and record `j` of the
output is the hash of chunk `j`, whose hashing task is finished. -/
structure PipeInv (hash : List Byte → Nat) (p : Pipeline) : Prop where
  hinv : ExecInv p.hashing_pool
  winv : ExecInv p.writing_pool
  wone : p.writing_pool.workers.length = 1
  hlen : p.hashing_tasks.length = p.hashing_pool.runs.length
  wle : p.writing_pool.runs.length ≤ p.hashing_tasks.length
  hle : p.hashing_tasks.length ≤ p.chunks.length
  closed : p.writing_pool.is_working_ = false → p.writing_pool.runs.length = p.chunks.length
  fresh : ∀ i : Nat, p.hashing_pool.runs[i]? = some 0 →
    ∃ c, p.chunks[i]? = some c ∧ p.hashing_tasks[i]? = some ⟨0, c⟩
  hashed : ∀ i : Nat, p.hashing_pool.runs[i]? = some 1 →
    ∃ c, p.chunks[i]? = some c ∧ p.hashing_tasks[i]? = some ⟨hash c, []⟩
  written : ∀ j : Nat, p.writing_pool.runs[j]? = some 1 ↔ j < p.output.length
  out : ∀ j : Nat, j < p.output.length →
    ∃ c, p.chunks[j]? = some c ∧ p.output[j]? = some (hash c) ∧
      p.hashing_pool.finished[j]? = some true

end signature

/-! # Theorems -/

namespace signature

/-! ## Argument handling -/

lemma digitChar_spec (d : Nat) (h : d < 10) :
    isdigit (Nat.digitChar d) = true ∧ (Nat.digitChar d).toNat - 48 = d := by
  interval_cases d <;> decide

lemma isdigit_not_special (c : Char) (h : isdigit c = true) :
    isspace c = false ∧ c ≠ '-' ∧ c ≠ '+' := by
  simp only [isdigit, Bool.and_eq_true, decide_eq_true_eq] at h
  refine ⟨?_, ?_, ?_⟩
  · simp only [isspace, Bool.or_eq_false_iff, Bool.and_eq_false_iff, beq_eq_false_iff_ne,
      decide_eq_false_iff_not]
    omega
  · rintro rfl
    revert h
    decide
  · rintro rfl
    revert h
    decide

/-- The digit loop of `strtol` reads back what `Nat.toDigitsCore` printed. -/
lemma toDigitsCore_spec (fuel : Nat) : ∀ (n : Nat) (ds : List Char), n < fuel →
    ∃ l : List Char, Nat.toDigitsCore 10 fuel n ds = l ++ ds ∧ l ≠ [] ∧
      (∀ c ∈ l, isdigit c = true) ∧
      ∀ (rest : List Char) (acc k : Nat),
        strtolDigits (l ++ rest) acc k
          = strtolDigits rest (acc * 10 ^ l.length + n) (k + l.length) := by
  induction fuel with
  | zero => intro n ds h; omega
  | succ fuel ih =>
    intro n ds h
    have hd := digitChar_spec (n % 10) (Nat.mod_lt _ (by norm_num))
    by_cases h0 : n / 10 = 0
    · refine ⟨[Nat.digitChar (n % 10)], ?_, by simp, ?_, ?_⟩
      · simp [Nat.toDigitsCore, h0]
      · intro c hc
        simp only [List.mem_singleton] at hc
        rw [hc]; exact hd.1
      · intro rest acc k
        have hn : n % 10 = n := Nat.mod_eq_of_lt (by omega)
        rw [hn] at hd
        simp [strtolDigits, hd.1, hd.2, hn]
    · have hlt : n / 10 < fuel := by omega
      obtain ⟨l, hl, hne, hdig, hval⟩ := ih (n / 10) (Nat.digitChar (n % 10) :: ds) hlt
      refine ⟨l ++ [Nat.digitChar (n % 10)], ?_, by simp, ?_, ?_⟩
      · simp [Nat.toDigitsCore, h0, hl]
      · intro c hc
        rcases List.mem_append.mp hc with hc | hc
        · exact hdig c hc
        · simp only [List.mem_singleton] at hc
          rw [hc]; exact hd.1
      · intro rest acc k
        have e : (acc * 10 ^ l.length + n / 10) * 10 + n % 10
            = acc * 10 ^ (l.length + 1) + n := by
          rw [pow_succ]
          nlinarith [Nat.div_add_mod n 10]
        rw [List.append_assoc, hval]
        simp only [List.singleton_append, strtolDigits, hd.1, if_true, hd.2, List.length_append,
          List.length_singleton, e, Nat.add_assoc]
        rfl

lemma strtol_repr_nat (m : Nat) : strtol (Nat.repr m).data = some (m : Int) := by
  obtain ⟨l, hl, hne, hdig, hval⟩ := toDigitsCore_spec (m + 1) m [] (Nat.lt_succ_self m)
  have hdata : (Nat.repr m).data = l := by
    simp [Nat.repr, Nat.toDigits, hl, List.asString]
  rw [hdata]
  cases l with
  | nil => exact absurd rfl hne
  | cons c cs =>
    obtain ⟨hs, hm, hp⟩ := isdigit_not_special c (hdig c (List.mem_cons_self _ _))
    have h : strtolDigits (c :: cs) 0 0 = (m, (c :: cs).length) := by
      have := hval [] 0 0
      rw [List.append_nil, zero_mul, zero_add, zero_add] at this
      exact this
    simp only [strtol, skipSpace, hs, Bool.false_eq_true, if_false, hm, hp]
    rw [h]
    simp

lemma strtol_repr_neg (m : Nat) :
    strtol ("-" ++ Nat.repr (m + 1)).data = some (-((m + 1 : Nat) : Int)) := by
  obtain ⟨l, hl, hne, hdig, hval⟩ := toDigitsCore_spec (m + 1 + 1) (m + 1) [] (Nat.lt_succ_self _)
  have hdata : ("-" ++ Nat.repr (m + 1)).data = '-' :: l := by
    simp [Nat.repr, Nat.toDigits, hl, List.asString, String.data_append]
  rw [hdata]
  have h : strtolDigits l 0 0 = (m + 1, l.length) := by
    have := hval [] 0 0
    rw [List.append_nil, zero_mul, zero_add, zero_add] at this
    exact this
  have hsp : isspace '-' = false := by decide
  simp only [strtol, skipSpace, hsp, Bool.false_eq_true, if_false, if_true]
  rw [h]
  have : l.length ≠ 0 := by
    intro h0; exact hne (List.length_eq_zero.mp h0)
  simp [this]

/-- The function `stoi` reads back the decimal representation of every `int`. -/
lemma stoi_repr (n : Int) (hlo : INT_MIN ≤ n) (hhi : n ≤ INT_MAX) : stoi (Int.repr n) = .ok n := by
  have hs : strtol (Int.repr n).data = some n := by
    cases n with
    | ofNat m => exact strtol_repr_nat m
    | negSucc m =>
      have := strtol_repr_neg m
      simpa [Int.repr, Int.negSucc_eq] using this
  simp only [stoi, hs]
  rw [if_neg]
  omega

lemma toSizeT_of_nonneg (n : Int) (h0 : 0 ≤ n) (hhi : n ≤ INT_MAX) : toSizeT n = n.toNat := by
  unfold toSizeT SIZE_MOD
  unfold INT_MAX at hhi
  rw [Int.emod_eq_of_lt h0 (by norm_num; omega)]

lemma toSizeT_of_neg (n : Int) (hlo : INT_MIN ≤ n) (h0 : n < 0) : 4000 < toSizeT n := by
  unfold toSizeT SIZE_MOD
  unfold INT_MIN at hlo
  have h : n % ((2 ^ 64 : Nat) : Int) = n + 18446744073709551616 := by
    norm_num
    omega
  rw [h]
  omega

lemma ParseArguments_four (argv : List String) (v : Int) (h : stoi (argv.getD 3 "") = .ok v) :
    ParseArguments 4 argv =
      if toSizeT v < 1 ∨ toSizeT v > 4000 then
        { error_message := blocksize_message }
      else
        { batchSize := (toSizeT v * kMBtoBytes) % SIZE_MOD
          input_file_name := argv.getD 1 ""
          output_file_name := argv.getD 2 ""
          is_success := true } := by
  simp only [ParseArguments, h]
  rfl

lemma ParseArguments_four_error (argv : List String) (e : StoiError)
    (h : stoi (argv.getD 3 "") = .error e) :
    ParseArguments 4 argv = { error_message := "Bad batch size input: " ++ argv.getD 3 "" } := by
  simp only [ParseArguments, h]
  rfl

lemma skipSpace_decomp (s : List Char) :
    ∃ ws : List Char, s = ws ++ skipSpace s ∧ ∀ c ∈ ws, isspace c = true := by
  induction s with
  | nil => exact ⟨[], rfl, by simp⟩
  | cons c cs ih =>
    by_cases hc : isspace c = true
    · obtain ⟨ws, hws, hall⟩ := ih
      refine ⟨c :: ws, ?_, ?_⟩
      · simp only [skipSpace, hc, if_true, List.cons_append]
        exact congrArg (List.cons c) hws
      · intro x hx
        rcases List.mem_cons.mp hx with hx | hx
        · rw [hx]; exact hc
        · exact hall x hx
    · exact ⟨[], by simp [skipSpace, hc], by simp⟩

lemma strtolDigits_consumed (cs : List Char) (h : (strtolDigits cs 0 0).2 ≠ 0) :
    ∃ (d : Char) (rest : List Char), cs = d :: rest ∧ isdigit d = true := by
  cases cs with
  | nil => exact absurd rfl h
  | cons d rest =>
    by_cases hd : isdigit d = true
    · exact ⟨d, rest, rfl, hd⟩
    · simp [strtolDigits, hd] at h

/-- When `strtol` converts something, the text is white space, an optional sign and at
least one digit, followed by anything. -/
lemma strtol_some_decomp (s : List Char) (v : Int) (h : strtol s = some v) :
    ∃ (ws sign rest : List Char) (d : Char), s = ws ++ sign ++ d :: rest ∧
      (∀ c ∈ ws, isspace c = true) ∧ (sign = [] ∨ sign = ['+'] ∨ sign = ['-']) ∧
      isdigit d = true := by
  obtain ⟨ws, hws, hall⟩ := skipSpace_decomp s
  unfold strtol at h
  cases hsk : skipSpace s with
  | nil => rw [hsk] at h; simp at h
  | cons c cs =>
    rw [hsk] at h hws
    simp only at h
    by_cases hm : c = '-'
    · rw [if_pos hm] at h
      by_cases hk : (strtolDigits cs 0 0).2 = 0
      · simp [hk] at h
      · obtain ⟨d, rest, hcs, hd⟩ := strtolDigits_consumed cs hk
        exact ⟨ws, ['-'], rest, d, by rw [hws, hm, hcs]; simp, hall, by simp, hd⟩
    · rw [if_neg hm] at h
      by_cases hp : c = '+'
      · rw [if_pos hp] at h
        by_cases hk : (strtolDigits cs 0 0).2 = 0
        · simp [hk] at h
        · obtain ⟨d, rest, hcs, hd⟩ := strtolDigits_consumed cs hk
          exact ⟨ws, ['+'], rest, d, by rw [hws, hp, hcs]; simp, hall, by simp, hd⟩
      · rw [if_neg hp] at h
        by_cases hk : (strtolDigits (c :: cs) 0 0).2 = 0
        · simp [hk] at h
        · obtain ⟨d, rest, hcs, hd⟩ := strtolDigits_consumed (c :: cs) hk
          exact ⟨ws, [], rest, d, by rw [hws, hcs]; simp, hall, by simp, hd⟩

/-! ## Reader and read loop -/

/-- One `ReadChunk` on a stream in good state at position `p`. -/
lemma ReadChunk_good (input : List Byte) (c p g : Nat) (buf : List Byte) :
    Reader.ReadChunk { buffer_size_ := (c : Int), input_stream_ := ⟨input, p, false, false, g⟩,
                       buffer_ := buf } =
      .ok (decide (0 < min c (input.length - p)),
        { buffer_size_ := (c : Int)
          input_stream_ := ⟨input, p + min c (input.length - p),
            decide (input.length - p < c), decide (input.length - p < c),
            min c (input.length - p)⟩
          buffer_ := padTo c ((input.drop p).take c) }) := by
  have hlen : ((input.drop p).take c).length = min c (input.length - p) := by
    simp [List.length_take, List.length_drop]
  have hneg : ¬ ((c : Int) < 0) := by omega
  by_cases hlt : input.length - p < c
  · have hmin : min c (input.length - p) = input.length - p := by omega
    have hlt2 : min c (input.length - p) < c := by omega
    simp only [Reader.ReadChunk, hneg, if_false, IStream.read, IStream.good, Bool.not_false,
      Bool.and_self, if_true, hlen, hlt2, Int.toNat_ofNat, padTo, List.drop_replicate, hlt,
      decide_True, gt_iff_lt]
  · have hmin : min c (input.length - p) = c := by omega
    have hlt2 : ¬ (min c (input.length - p) < c) := by omega
    simp only [Reader.ReadChunk, hneg, if_false, IStream.read, IStream.good, Bool.not_false,
      Bool.and_self, if_true, hlen, hlt2, Int.toNat_ofNat, padTo, List.drop_replicate, hlt,
      decide_False, gt_iff_lt]

/-- Once the stream has left the good state the next `ReadChunk` returns false. -/
lemma readLoop_failed (fuel c p g : Nat) (input buf : List Byte) :
    readLoop (fuel + 1) { buffer_size_ := (c : Int), input_stream_ := ⟨input, p, true, true, g⟩,
                          buffer_ := buf } = some (.ok []) := by
  have hneg : ¬ ((c : Int) < 0) := by omega
  simp [readLoop, Reader.ReadChunk, IStream.read, IStream.good, hneg]

/-- The read loop from position `p` of a good stream: it ends within
`input.length - p + 1` iterations, and task `i` holds the padded bytes from `p + i * c`. -/
lemma readLoop_good (input : List Byte) (c : Nat) (hc : 0 < c) :
    ∀ (fuel p g : Nat) (buf : List Byte), p ≤ input.length → input.length - p < fuel →
      ∃ tasks : List HashingTask,
        readLoop fuel { buffer_size_ := (c : Int), input_stream_ := ⟨input, p, false, false, g⟩,
                        buffer_ := buf } = some (.ok tasks) ∧
        tasks.length = (input.length - p + c - 1) / c ∧
        ∀ i, i < tasks.length →
          tasks[i]? = some { bucket_ := padTo c ((input.drop (p + i * c)).take c) } := by
  intro fuel
  induction fuel with
  | zero => intro p g buf _ h; omega
  | succ fuel ih =>
    intro p g buf hp hfuel
    have hRC := ReadChunk_good input c p g buf
    by_cases h0 : input.length - p = 0
    · refine ⟨[], ?_, ?_, by simp⟩
      · have hm : ¬ (0 < min c (input.length - p)) := by omega
        simp only [readLoop, hRC, hm, decide_False]
      · have : input.length - p + c - 1 < c := by omega
        simp [Nat.div_eq_of_lt this]
    · have hm : 0 < min c (input.length - p) := by omega
      by_cases hlt : input.length - p < c
      · -- the final, short read
        obtain ⟨fuel1, rfl⟩ : ∃ f, fuel = f + 1 := ⟨fuel - 1, by omega⟩
        refine ⟨[{ bucket_ := padTo c ((input.drop p).take c) }], ?_, ?_, ?_⟩
        · simp only [readLoop, hRC, hm, decide_True, Reader.GetChunk, hlt]
          rfl
        · have h1 : input.length - p + c - 1 = c + (input.length - p - 1) := by omega
          rw [h1, Nat.add_div_left _ hc, Nat.div_eq_of_lt (by omega)]
          rfl
        · intro i hi
          have hi0 : i = 0 := by simpa using hi
          subst hi0
          simp
      · -- a full chunk, the stream stays good
        have hmin : min c (input.length - p) = c := by omega
        obtain ⟨tasks, hrun, hlen, hget⟩ := ih (p + c) c [] (by omega) (by omega)
        refine ⟨{ bucket_ := padTo c ((input.drop p).take c) } :: tasks, ?_, ?_, ?_⟩
        · simp only [readLoop, hRC, hmin, hc, decide_True, Reader.GetChunk, hlt, decide_False,
            hrun]
          rfl
        · have h1 : input.length - p + c - 1 = c + (input.length - (p + c) + c - 1) := by omega
          rw [List.length_cons, hlen, h1, Nat.add_div_left _ hc]
        · intro i hi
          cases i with
          | zero => simp
          | succ i =>
            have hi2 : i < tasks.length := by simpa using hi
            have := hget i hi2
            have harith : p + c + i * c = p + (i + 1) * c := by ring
            rw [harith] at this
            simpa using this

end signature

namespace execution

/-! ## Executor lifecycle -/

/-- After a shutdown request every join returns and leaves its thread not joinable. -/
lemma Lifecycle.joinAll_shutdown (n : Nat) :
    Lifecycle.joinAll false (List.replicate n true) = .returns (List.replicate n false) := by
  induction n with
  | zero => rfl
  | succ n ih => simp [List.replicate_succ, Lifecycle.joinAll, ih]

/-! ## Executor workers -/

lemma getElem?_set_of {α : Type} {ws : List α} {w : Nat} {pc : α} (h : ws[w]? = some pc)
    (pc' : α) (w' : Nat) :
    (ws.set w pc')[w']? = if w = w' then some pc' else ws[w']? := by
  have hw : w < ws.length := by
    by_contra hc
    rw [List.getElem?_eq_none (by omega)] at h
    cases h
  simp [List.getElem?_set, hw]

lemma lt_length_of_getElem? {α : Type} {l : List α} {i : Nat} {a : α} (h : l[i]? = some a) :
    i < l.length := by
  by_contra hc
  rw [List.getElem?_eq_none (by omega)] at h
  cases h

/-- A step that changes neither the queue nor the task records nor which worker holds
which task keeps the invariant, provided the clauses on exited workers hold after it. -/
lemma ExecInv.transfer {s s' : ExecState} (h : ExecInv s)
    (ht : s'.tasks_ = s.tasks_) (hr : s'.runs = s.runs) (hf : s'.finished = s.finished)
    (hlen : s'.workers.length = s.workers.length)
    (hrun : ∀ w i : Nat, s'.workers[w]? = some (WorkerPc.running i) ↔
      s.workers[w]? = some (WorkerPc.running i))
    (hran : ∀ w i : Nat, s'.workers[w]? = some (WorkerPc.ran i) ↔
      s.workers[w]? = some (WorkerPc.ran i))
    (hex : ∀ w : Nat, s'.workers[w]? = some WorkerPc.exited →
      s'.is_working_ = false ∧ s'.tasks_ = [])
    (hj : s'.joined = true → ∀ w : Nat, w < s'.workers.length →
      s'.workers[w]? = some WorkerPc.exited) :
    ExecInv s' := by
  have hp : s'.popped = s.popped := by simp only [ExecState.popped, ht, hr]
  have hh : ∀ w i : Nat, holds s'.workers w i ↔ holds s.workers w i := by
    intro w i
    simp only [holds, hrun, hran]
  refine ⟨by rw [hlen]; exact h.nonempty, by rw [hf, hr]; exact h.len,
    by rw [ht, hr]; exact h.qlen, by rw [hp, ht]; exact h.queue, ?_, ?_, ?_, ?_, ?_, hex, hj⟩
  · intro w i hw
    rw [hp, hr, hf]
    exact h.running w i ((hrun w i).mp hw)
  · intro w i hw
    rw [hp, hr, hf]
    exact h.ran w i ((hran w i).mp hw)
  · intro w w' i h1 h2
    exact h.unique w w' i ((hh w i).mp h1) ((hh w' i).mp h2)
  · intro i hi
    rw [hp] at hi
    rcases h.popped i hi with ⟨w, hw⟩ | hdone
    · exact Or.inl ⟨w, (hh w i).mpr hw⟩
    · right; rw [hr, hf]; exact hdone
  · intro i h1 h2
    rw [hp] at h1
    rw [hr] at h2 ⊢
    rw [hf]
    exact h.queued i h1 h2

lemma ExecInv.init (n : Nat) (hn : 0 < n) : ExecInv (ExecState.init n) := by
  refine ⟨by simpa [ExecState.init] using hn, rfl, by simp [ExecState.init],
    by simp [ExecState.init, ExecState.popped], ?_, ?_, ?_, ?_, ?_, ?_, ?_⟩
  · intro w i hw
    simp only [ExecState.init, List.getElem?_replicate] at hw
    split at hw <;> cases hw
  · intro w i hw
    simp only [ExecState.init, List.getElem?_replicate] at hw
    split at hw <;> cases hw
  · intro w w' i h1 _
    simp only [holds, ExecState.init, List.getElem?_replicate] at h1
    rcases h1 with h1 | h1 <;> (split at h1 <;> cases h1)
  · intro i hi
    simp [ExecState.init, ExecState.popped] at hi
  · intro i _ hi
    simp [ExecState.init] at hi
  · intro w hw
    simp only [ExecState.init, List.getElem?_replicate] at hw
    split at hw <;> cases hw
  · intro hj
    simp [ExecState.init] at hj

lemma ExecInv.wake {s s' : ExecState} (h : ExecInv s) (w : Nat)
    (hs : s.workerStep (.wake w) = some s') : ExecInv s' := by
  simp only [ExecState.workerStep] at hs
  split at hs
  · rename_i hw
    injection hs with hs
    subst hs
    have hset := getElem?_set_of hw WorkerPc.ready
    refine h.transfer rfl rfl rfl (by simp) ?_ ?_ ?_ ?_
    · intro w' i
      simp only [hset]
      by_cases hww : w = w'
      · subst hww; simp [hw]
      · simp [hww]
    · intro w' i
      simp only [hset]
      by_cases hww : w = w'
      · subst hww; simp [hw]
      · simp [hww]
    · intro w' hw'
      simp only [hset] at hw'
      by_cases hww : w = w'
      · simp [hww] at hw'
      · simp only [hww, if_false] at hw'
        exact h.exited w' hw'
    · intro hj w' hw'
      have := h.joined hj w (lt_length_of_getElem? hw)
      rw [hw] at this
      cases this
  · cases hs

/-- Replacing the program point of a worker that holds no task by another program point
that holds no task keeps the invariant. -/
lemma ExecInv.idle_step {s : ExecState} (h : ExecInv s) (w : Nat) (pc pc' : WorkerPc)
    (hw : s.workers[w]? = some pc)
    (hpc : ∀ i : Nat, pc ≠ WorkerPc.running i ∧ pc ≠ WorkerPc.ran i)
    (hpc' : ∀ i : Nat, pc' ≠ WorkerPc.running i ∧ pc' ≠ WorkerPc.ran i)
    (hne : pc ≠ WorkerPc.exited)
    (hex : pc' = WorkerPc.exited → s.is_working_ = false ∧ s.tasks_ = []) :
    ExecInv { s with workers := s.workers.set w pc' } := by
  have hset := getElem?_set_of hw pc'
  refine h.transfer rfl rfl rfl (by simp) ?_ ?_ ?_ ?_
  · intro w' i
    simp only [hset]
    by_cases hww : w = w'
    · subst hww
      simp only [if_true, hw, Option.some.injEq]
      exact ⟨fun e => absurd e (hpc' i).1, fun e => absurd e (hpc i).1⟩
    · simp [hww]
  · intro w' i
    simp only [hset]
    by_cases hww : w = w'
    · subst hww
      simp only [if_true, hw, Option.some.injEq]
      exact ⟨fun e => absurd e (hpc' i).2, fun e => absurd e (hpc i).2⟩
    · simp [hww]
  · intro w' hw'
    simp only [hset] at hw'
    by_cases hww : w = w'
    · simp only [hww, if_true, Option.some.injEq] at hw'
      exact hex hw'
    · simp only [hww, if_false] at hw'
      exact h.exited w' hw'
  · intro hj w' _
    have := h.joined hj w (lt_length_of_getElem? hw)
    rw [hw] at this
    injection this with this
    exact absurd this hne

lemma ExecInv.enter {s s' : ExecState} (h : ExecInv s) (w : Nat)
    (hs : s.workerStep (.enter w) = some s') : ExecInv s' := by
  simp only [ExecState.workerStep] at hs
  split at hs
  · rename_i hw
    split at hs
    · rename_i hq
      split at hs
      · injection hs with hs
        subst hs
        exact h.idle_step w _ _ hw (by simp) (by simp) (by simp) (by simp)
      · rename_i hwk
        injection hs with hs
        subst hs
        exact h.idle_step w _ _ hw (by simp) (by simp) (by simp)
          (fun _ => ⟨by simpa using hwk, hq⟩)
    · rename_i i rest hq
      injection hs with hs
      subst hs
      have hset := getElem?_set_of hw (WorkerPc.running i)
      have hql := h.qlen
      have hqueue := h.queue
      rw [hq] at hql hqueue
      simp only [List.length_cons] at hql hqueue
      rw [List.range'_succ] at hqueue
      injection hqueue with hi hrest
      have hp : s.popped + 1 = s.runs.length - rest.length := by
        simp only [ExecState.popped, hq, List.length_cons]
        omega
      have hp' : ∀ ws : List WorkerPc, ExecState.popped
          ⟨s.is_working_, rest, ws, s.runs, s.finished, s.joined⟩ = s.popped + 1 := by
        intro ws
        simp only [ExecState.popped, hq, List.length_cons]
        omega
      have hpn : s.popped < s.runs.length := by
        simp only [ExecState.popped, hq, List.length_cons]
        omega
      refine ⟨by simpa using h.nonempty, h.len, by simp only; omega, ?_, ?_, ?_, ?_, ?_, ?_,
        ?_, ?_⟩
      · rw [hp']
        exact hrest
      · intro w' j hw'
        rw [hp']
        simp only [hset] at hw'
        by_cases hww : w = w'
        · simp only [hww, if_true, Option.some.injEq, WorkerPc.running.injEq] at hw'
          subst hw'
          have := h.queued i (by omega) (by omega)
          exact ⟨by omega, this.1, this.2⟩
        · simp only [hww, if_false] at hw'
          have := h.running w' j hw'
          exact ⟨by omega, this.2.1, this.2.2⟩
      · intro w' j hw'
        rw [hp']
        simp only [hset] at hw'
        by_cases hww : w = w'
        · simp [hww] at hw'
        · simp only [hww, if_false] at hw'
          have := h.ran w' j hw'
          exact ⟨by omega, this.2.1, this.2.2⟩
      · intro w1 w2 j h1 h2
        simp only [holds, hset] at h1 h2
        by_cases hw1 : w = w1 <;> by_cases hw2 : w = w2
        · rw [← hw1, ← hw2]
        · simp only [hw1, if_true, Option.some.injEq, WorkerPc.running.injEq, reduceCtorEq,
            or_false] at h1
          simp only [hw2, if_false] at h2
          subst h1
          rcases h2 with h2 | h2
          · have := (h.running w2 i h2).1; omega
          · have := (h.ran w2 i h2).1; omega
        · simp only [hw2, if_true, Option.some.injEq, WorkerPc.running.injEq, reduceCtorEq,
            or_false] at h2
          simp only [hw1, if_false] at h1
          subst h2
          rcases h1 with h1 | h1
          · have := (h.running w1 i h1).1; omega
          · have := (h.ran w1 i h1).1; omega
        · simp only [hw1, if_false] at h1
          simp only [hw2, if_false] at h2
          exact h.unique w1 w2 j h1 h2
      · intro j hj
        rw [hp'] at hj
        by_cases hji : j = i
        · left
          refine ⟨w, Or.inl ?_⟩
          simp [hset, hji]
        · rcases h.popped j (by omega) with ⟨w0, hw0⟩ | hdone
          · left
            refine ⟨w0, ?_⟩
            have hne : w ≠ w0 := by
              rintro rfl
              rcases hw0 with hw0 | hw0 <;> (rw [hw] at hw0; cases hw0)
            simpa [holds, hset, hne] using hw0
          · exact Or.inr hdone
      · intro j h1 h2
        rw [hp'] at h1
        exact h.queued j (by omega) h2
      · intro w' hw'
        simp only [hset] at hw'
        by_cases hww : w = w'
        · simp [hww] at hw'
        · simp only [hww, if_false] at hw'
          have := (h.exited w' hw').2
          rw [hq] at this
          cases this
      · intro hj w' _
        have := h.joined hj w (lt_length_of_getElem? hw)
        rw [hw] at this
        cases this
  · cases hs

lemma ExecInv.run {s s' : ExecState} (h : ExecInv s) (w : Nat)
    (hs : s.workerStep (.run w) = some s') : ExecInv s' := by
  simp only [ExecState.workerStep] at hs
  split at hs
  · rename_i i hw
    injection hs with hs
    subst hs
    obtain ⟨hip, hri, hfi⟩ := h.running w i hw
    have hset := getElem?_set_of hw (WorkerPc.ran i)
    have hrd : s.runs.getD i 0 + 1 = 1 := by
      simp [List.getD_eq_getElem?_getD, hri]
    have hrset := getElem?_set_of hri (s.runs.getD i 0 + 1)
    rw [hrd] at hrset
    have hp' : ∀ ws : List WorkerPc, ExecState.popped
        ⟨s.is_working_, s.tasks_, ws, s.runs.set i (s.runs.getD i 0 + 1), s.finished,
          s.joined⟩ = s.popped := by
      intro ws
      simp only [ExecState.popped, List.length_set]
    have hother : ∀ w' j : Nat, w ≠ w' → holds s.workers w' j → i ≠ j := by
      intro w' j hne hh hij
      subst hij
      exact hne (h.unique w w' i (Or.inl hw) hh)
    refine ⟨by simpa using h.nonempty, by simpa using h.len, by simpa using h.qlen, ?_, ?_, ?_,
      ?_, ?_, ?_, ?_, ?_⟩
    · rw [hp']
      exact h.queue
    · intro w' j hw'
      rw [hp']
      simp only [hset] at hw'
      by_cases hww : w = w'
      · simp [hww] at hw'
      · simp only [hww, if_false] at hw'
        have hij := hother w' j hww (Or.inl hw')
        have := h.running w' j hw'
        simp only [hrd, hrset, hij, if_false]
        exact this
    · intro w' j hw'
      rw [hp']
      simp only [hset] at hw'
      by_cases hww : w = w'
      · simp only [hww, if_true, Option.some.injEq, WorkerPc.ran.injEq] at hw'
        subst hw'
        simp only [hrd, hrset, if_true]
        exact ⟨hip, trivial, hfi⟩
      · simp only [hww, if_false] at hw'
        have hij := hother w' j hww (Or.inr hw')
        have := h.ran w' j hw'
        simp only [hrd, hrset, hij, if_false]
        exact this
    · have hh : ∀ w' j : Nat, holds (s.workers.set w (WorkerPc.ran i)) w' j →
          holds s.workers w' j := by
        intro w' j hh
        simp only [holds, hset] at hh
        by_cases hww : w = w'
        · simp only [hww, if_true, Option.some.injEq, reduceCtorEq, WorkerPc.ran.injEq,
            false_or] at hh
          subst hh
          subst hww
          exact Or.inl hw
        · simpa [hww] using hh
      intro w1 w2 j h1 h2
      exact h.unique w1 w2 j (hh w1 j h1) (hh w2 j h2)
    · intro j hj
      rw [hp'] at hj
      rcases h.popped j hj with ⟨w0, hw0⟩ | hdone
      · left
        by_cases hww : w = w0
        · subst hww
          have hji : j = i := by
            rcases hw0 with hw0 | hw0 <;> (rw [hw] at hw0; injection hw0 with hw0)
            · injection hw0 with hw0; exact hw0.symm
            · cases hw0
          subst hji
          exact ⟨w, Or.inr (by simp [hset])⟩
        · exact ⟨w0, by simpa [holds, hset, hww] using hw0⟩
      · right
        have hij : i ≠ j := by
          rintro rfl
          rw [hri] at hdone
          cases hdone.1
        simp only [hrd, hrset, hij, if_false]
        exact hdone
    · intro j h1 h2
      rw [hp'] at h1
      simp only [List.length_set] at h2
      have hij : i ≠ j := by omega
      simp only [hrd, hrset, hij, if_false]
      exact h.queued j h1 h2
    · intro w' hw'
      simp only [hset] at hw'
      by_cases hww : w = w'
      · simp [hww] at hw'
      · simp only [hww, if_false] at hw'
        exact h.exited w' hw'
    · intro hj w' _
      have := h.joined hj w (lt_length_of_getElem? hw)
      rw [hw] at this
      cases this
  · cases hs

lemma ExecInv.setFinished {s s' : ExecState} (h : ExecInv s) (w : Nat)
    (hs : s.workerStep (.setFinished w) = some s') : ExecInv s' := by
  simp only [ExecState.workerStep] at hs
  split at hs
  · rename_i i hw
    injection hs with hs
    subst hs
    obtain ⟨hip, hri, hfi⟩ := h.ran w i hw
    have hset := getElem?_set_of hw WorkerPc.ready
    have hfset := getElem?_set_of hfi true
    have hp' : ∀ ws : List WorkerPc, ExecState.popped
        ⟨s.is_working_, s.tasks_, ws, s.runs, s.finished.set i true, s.joined⟩ = s.popped := by
      intro ws
      simp only [ExecState.popped]
    have hother : ∀ w' j : Nat, w ≠ w' → holds s.workers w' j → i ≠ j := by
      intro w' j hne hh hij
      subst hij
      exact hne (h.unique w w' i (Or.inr hw) hh)
    have hh : ∀ w' j : Nat, holds (s.workers.set w WorkerPc.ready) w' j →
        w ≠ w' ∧ holds s.workers w' j := by
      intro w' j hh
      simp only [holds, hset] at hh
      by_cases hww : w = w'
      · simp [hww] at hh
      · exact ⟨hww, by simpa [hww] using hh⟩
    refine ⟨by simpa using h.nonempty, by simpa using h.len, h.qlen, ?_, ?_, ?_,
      ?_, ?_, ?_, ?_, ?_⟩
    · rw [hp']
      exact h.queue
    · intro w' j hw'
      rw [hp']
      obtain ⟨hww, hold⟩ := hh w' j (Or.inl hw')
      have hij := hother w' j hww hold
      simp only [hset, hww, if_false] at hw'
      simp only [hfset, hij, if_false]
      exact h.running w' j hw'
    · intro w' j hw'
      rw [hp']
      obtain ⟨hww, hold⟩ := hh w' j (Or.inr hw')
      have hij := hother w' j hww hold
      simp only [hset, hww, if_false] at hw'
      simp only [hfset, hij, if_false]
      exact h.ran w' j hw'
    · intro w1 w2 j h1 h2
      exact h.unique w1 w2 j (hh w1 j h1).2 (hh w2 j h2).2
    · intro j hj
      rw [hp'] at hj
      by_cases hij : i = j
      · subst hij
        right
        exact ⟨hri, by simp [hfset]⟩
      · rcases h.popped j hj with ⟨w0, hw0⟩ | hdone
        · left
          have hww : w ≠ w0 := by
            rintro rfl
            rcases hw0 with hw0 | hw0 <;> (rw [hw] at hw0; injection hw0 with hw0)
            · cases hw0
            · injection hw0 with hw0; exact hij hw0
          exact ⟨w0, by simpa [holds, hset, hww] using hw0⟩
        · right
          simp only [hfset, hij, if_false]
          exact hdone
    · intro j h1 h2
      rw [hp'] at h1
      have hij : i ≠ j := by omega
      simp only [hfset, hij, if_false]
      exact h.queued j h1 h2
    · intro w' hw'
      simp only [hset] at hw'
      by_cases hww : w = w'
      · simp [hww] at hw'
      · simp only [hww, if_false] at hw'
        exact h.exited w' hw'
    · intro hj w' _
      have := h.joined hj w (lt_length_of_getElem? hw)
      rw [hw] at this
      cases this
  · cases hs

/-- A notification changes program points from `waiting` to `ready` only. -/
lemma notifyOne_spec {ws ws' : List WorkerPc} {notified : Option Nat}
    (h : notifyOne ws notified = some ws') :
    ws'.length = ws.length ∧
    ∀ (w : Nat) (pc : WorkerPc), pc ≠ WorkerPc.ready → pc ≠ WorkerPc.waiting →
      (ws'[w]? = some pc ↔ ws[w]? = some pc) := by
  cases notified with
  | none =>
    simp only [notifyOne] at h
    split at h
    · cases h
    · injection h with h
      subst h
      exact ⟨rfl, fun _ _ _ _ => Iff.rfl⟩
  | some w0 =>
    simp only [notifyOne] at h
    split at h
    · rename_i hw0
      injection h with h
      subst h
      refine ⟨by simp, ?_⟩
      intro w pc h1 h2
      rw [getElem?_set_of hw0]
      by_cases hww : w0 = w
      · subst hww
        simp only [if_true, hw0, Option.some.injEq]
        exact ⟨fun e => absurd e.symm h1, fun e => absurd e.symm h2⟩
      · simp [hww]
    · cases h

lemma notifyAll_spec (ws : List WorkerPc) :
    (notifyAll ws).length = ws.length ∧
    ∀ (w : Nat) (pc : WorkerPc), pc ≠ WorkerPc.ready → pc ≠ WorkerPc.waiting →
      ((notifyAll ws)[w]? = some pc ↔ ws[w]? = some pc) := by
  refine ⟨by simp [notifyAll], ?_⟩
  intro w pc h1 h2
  simp only [notifyAll, List.getElem?_map]
  cases hw : ws[w]? with
  | none => simp
  | some pc0 =>
    simp only [Option.map_some', Option.some.injEq]
    by_cases hp : pc0 = WorkerPc.waiting
    · subst hp
      simp only [if_true]
      exact ⟨fun e => absurd e.symm h1, fun e => absurd e.symm h2⟩
    · simp [hp]

lemma ExecInv.submit {s s' : ExecState} (h : ExecInv s) (notified : Option Nat)
    (hs : s.Submit notified = some s') : ExecInv s' := by
  simp only [ExecState.Submit] at hs
  split at hs
  · rename_i hwk
    split at hs
    · rename_i ws hn
      injection hs with hs
      subst hs
      obtain ⟨hlen, hpc⟩ := notifyOne_spec hn
      have hrun : ∀ w i : Nat, ws[w]? = some (WorkerPc.running i) ↔
          s.workers[w]? = some (WorkerPc.running i) :=
        fun w i => hpc w _ (by simp) (by simp)
      have hran : ∀ w i : Nat, ws[w]? = some (WorkerPc.ran i) ↔
          s.workers[w]? = some (WorkerPc.ran i) :=
        fun w i => hpc w _ (by simp) (by simp)
      have hexi : ∀ w : Nat, ws[w]? = some WorkerPc.exited ↔
          s.workers[w]? = some WorkerPc.exited :=
        fun w => hpc w _ (by simp) (by simp)
      have hh : ∀ w i : Nat, holds ws w i ↔ holds s.workers w i := by
        intro w i
        simp only [holds, hrun, hran]
      have hql := h.qlen
      have hp' : ExecState.popped
          ⟨s.is_working_, s.tasks_ ++ [s.runs.length], ws, s.runs ++ [0],
            s.finished ++ [false], s.joined⟩ = s.popped := by
        simp only [ExecState.popped, List.length_append, List.length_singleton]
        omega
      have hlenf := h.len
      have hold : ∀ (j : Nat) (a : Nat) (b : Bool), s.runs[j]? = some a →
          s.finished[j]? = some b →
          (s.runs ++ [0])[j]? = some a ∧ (s.finished ++ [false])[j]? = some b := by
        intro j a b ha hb
        rw [List.getElem?_append_left (lt_length_of_getElem? ha),
          List.getElem?_append_left (lt_length_of_getElem? hb)]
        exact ⟨ha, hb⟩
      have hnoexit : ∀ w : Nat, ¬ ws[w]? = some WorkerPc.exited := by
        intro w hw
        have := (h.exited w ((hexi w).mp hw)).1
        rw [hwk] at this
        cases this
      refine ⟨by rw [hlen]; exact h.nonempty, by simp [hlenf], by simp; omega, ?_, ?_, ?_, ?_,
        ?_, ?_, ?_, ?_⟩
      · rw [hp']
        simp only [List.length_append, List.length_singleton]
        rw [List.range'_concat, ← h.queue]
        simp only [ExecState.popped]
        congr 2
        omega
      · intro w i hw
        rw [hp']
        obtain ⟨h1, h2, h3⟩ := h.running w i ((hrun w i).mp hw)
        exact ⟨h1, (hold i _ _ h2 h3).1, (hold i _ _ h2 h3).2⟩
      · intro w i hw
        rw [hp']
        obtain ⟨h1, h2, h3⟩ := h.ran w i ((hran w i).mp hw)
        exact ⟨h1, (hold i _ _ h2 h3).1, (hold i _ _ h2 h3).2⟩
      · intro w w' i h1 h2
        exact h.unique w w' i ((hh w i).mp h1) ((hh w' i).mp h2)
      · intro i hi
        rw [hp'] at hi
        rcases h.popped i hi with ⟨w, hw⟩ | hdone
        · exact Or.inl ⟨w, (hh w i).mpr hw⟩
        · exact Or.inr (hold i _ _ hdone.1 hdone.2)
      · intro i h1 h2
        rw [hp'] at h1
        simp only [List.length_append, List.length_singleton] at h2
        by_cases hi : i < s.runs.length
        · obtain ⟨h3, h4⟩ := h.queued i h1 hi
          exact hold i _ _ h3 h4
        · have hie : i = s.runs.length := by omega
          subst hie
          refine ⟨List.getElem?_concat_length _ _, ?_⟩
          rw [← hlenf]
          exact List.getElem?_concat_length _ _
      · intro w hw
        exact absurd hw (hnoexit w)
      · intro hj w hw
        rw [hlen] at hw
        have := h.joined hj w hw
        exact absurd ((hexi w).mpr this) (hnoexit w)
    · cases hs
  · cases hs

lemma ExecInv.startShutdown {s : ExecState} (h : ExecInv s) : ExecInv s.StartShutdown := by
  obtain ⟨hlen, hpc⟩ := notifyAll_spec s.workers
  refine h.transfer rfl rfl rfl hlen (fun w i => hpc w _ (by simp) (by simp))
    (fun w i => hpc w _ (by simp) (by simp)) ?_ ?_
  · intro w hw
    have := (hpc w _ (by simp) (by simp)).mp hw
    exact ⟨rfl, (h.exited w this).2⟩
  · intro hj w hw
    have hw2 : w < s.workers.length := by rw [← hlen]; exact hw
    exact (hpc w _ (by simp) (by simp)).mpr (h.joined hj w hw2)

lemma ExecInv.waitShutdown {s s' : ExecState} (h : ExecInv s)
    (hs : s.WaitShutdown = some s') : ExecInv s' := by
  simp only [ExecState.WaitShutdown] at hs
  split at hs
  · rename_i hc
    injection hs with hs
    subst hs
    have hall : ∀ w : Nat, w < s.workers.length → s.workers[w]? = some WorkerPc.exited := by
      intro w hw
      have := List.all_eq_true.mp hc.1 s.workers[w] (List.getElem_mem hw)
      rw [List.getElem?_eq_getElem hw]
      simpa using this
    have hempty : s.tasks_ = [] := (h.exited 0 (hall 0 h.nonempty)).2
    refine h.transfer hempty.symm rfl rfl rfl (fun _ _ => Iff.rfl) (fun _ _ => Iff.rfl) ?_ ?_
    · intro w hw
      exact ⟨(h.exited w hw).1, rfl⟩
    · intro _ w hw
      exact hall w hw
  · cases hs

/-- Every step keeps the invariant. -/
lemma ExecInv.step {s s' : ExecState} (h : ExecInv s) (a : ExecAction)
    (hs : s.step a = some s') : ExecInv s' := by
  cases a with
  | owner a =>
    cases a with
    | submit notified => exact h.submit notified hs
    | startShutdown =>
      simp only [ExecState.step, ExecState.ownerStep] at hs
      injection hs with hs
      subst hs
      exact h.startShutdown
    | waitShutdown => exact h.waitShutdown hs
  | worker a =>
    cases a with
    | enter w => exact h.enter w hs
    | wake w => exact h.wake w hs
    | run w => exact h.run w hs
    | setFinished w => exact h.setFinished w hs

/-- Every state reached by a schedule satisfies the invariant. -/
lemma ExecInv.run_schedule {s s' : ExecState} (h : ExecInv s) (sched : List ExecAction)
    (hs : s.run sched = some s') : ExecInv s' := by
  induction sched generalizing s with
  | nil =>
    simp only [ExecState.run] at hs
    injection hs with hs
    subst hs
    exact h
  | cons a as ih =>
    simp only [ExecState.run] at hs
    cases hstep : s.step a with
    | none => rw [hstep] at hs; cases hs
    | some s1 =>
      rw [hstep] at hs
      exact ih (h.step a hstep) hs

/-- The number of worker threads never changes. -/
lemma ExecState.step_workers_length {s s' : ExecState} (a : ExecAction)
    (hs : s.step a = some s') : s'.workers.length = s.workers.length := by
  cases a with
  | owner a =>
    cases a with
    | submit notified =>
      simp only [ExecState.step, ExecState.ownerStep, ExecState.Submit] at hs
      split at hs
      · split at hs
        · rename_i ws hn
          injection hs with hs
          subst hs
          exact (notifyOne_spec hn).1
        · cases hs
      · cases hs
    | startShutdown =>
      simp only [ExecState.step, ExecState.ownerStep] at hs
      injection hs with hs
      subst hs
      exact (notifyAll_spec s.workers).1
    | waitShutdown =>
      simp only [ExecState.step, ExecState.ownerStep, ExecState.WaitShutdown] at hs
      split at hs
      · injection hs with hs
        subst hs
        rfl
      · cases hs
  | worker a =>
    cases a with
    | enter w =>
      simp only [ExecState.step, ExecState.workerStep] at hs
      split at hs
      · split at hs
        · split at hs <;> (injection hs with hs; subst hs; exact List.length_set _ _ _)
        · injection hs with hs
          subst hs
          exact List.length_set _ _ _
      · cases hs
    | wake w =>
      simp only [ExecState.step, ExecState.workerStep] at hs
      split at hs
      · injection hs with hs
        subst hs
        exact List.length_set _ _ _
      · cases hs
    | run w =>
      simp only [ExecState.step, ExecState.workerStep] at hs
      split at hs
      · injection hs with hs
        subst hs
        exact List.length_set _ _ _
      · cases hs
    | setFinished w =>
      simp only [ExecState.step, ExecState.workerStep] at hs
      split at hs
      · injection hs with hs
        subst hs
        exact List.length_set _ _ _
      · cases hs

lemma ExecState.run_workers_length {s s' : ExecState} (sched : List ExecAction)
    (hs : s.run sched = some s') : s'.workers.length = s.workers.length := by
  induction sched generalizing s with
  | nil =>
    simp only [ExecState.run] at hs
    injection hs with hs
    subst hs
    rfl
  | cons a as ih =>
    simp only [ExecState.run] at hs
    cases hstep : s.step a with
    | none => rw [hstep] at hs; cases hs
    | some s1 =>
      rw [hstep] at hs
      rw [ih hs, ExecState.step_workers_length a hstep]

/-- Only `Submit` adds a task record. -/
lemma ExecState.step_runs_length {s s' : ExecState} (a : ExecAction)
    (hs : s.step a = some s') :
    s'.runs.length = s.runs.length + (if a.isSubmit then 1 else 0) := by
  cases a with
  | owner a =>
    cases a with
    | submit notified =>
      simp only [ExecState.step, ExecState.ownerStep, ExecState.Submit] at hs
      split at hs
      · split at hs
        · injection hs with hs
          subst hs
          simp [ExecAction.isSubmit]
        · cases hs
      · cases hs
    | startShutdown =>
      simp only [ExecState.step, ExecState.ownerStep] at hs
      injection hs with hs
      subst hs
      simp [ExecAction.isSubmit, ExecState.StartShutdown]
    | waitShutdown =>
      simp only [ExecState.step, ExecState.ownerStep, ExecState.WaitShutdown] at hs
      split at hs
      · injection hs with hs
        subst hs
        simp [ExecAction.isSubmit]
      · cases hs
  | worker a =>
    cases a with
    | enter w =>
      simp only [ExecState.step, ExecState.workerStep] at hs
      split at hs
      · split at hs
        · split at hs <;> (injection hs with hs; subst hs; simp [ExecAction.isSubmit])
        · injection hs with hs
          subst hs
          simp [ExecAction.isSubmit]
      · cases hs
    | wake w =>
      simp only [ExecState.step, ExecState.workerStep] at hs
      split at hs
      · injection hs with hs
        subst hs
        simp [ExecAction.isSubmit]
      · cases hs
    | run w =>
      simp only [ExecState.step, ExecState.workerStep] at hs
      split at hs
      · injection hs with hs
        subst hs
        simp [ExecAction.isSubmit]
      · cases hs
    | setFinished w =>
      simp only [ExecState.step, ExecState.workerStep] at hs
      split at hs
      · injection hs with hs
        subst hs
        simp [ExecAction.isSubmit]
      · cases hs

lemma ExecState.run_runs_length {s s' : ExecState} (sched : List ExecAction)
    (hs : s.run sched = some s') :
    s'.runs.length = s.runs.length + sched.countP ExecAction.isSubmit := by
  induction sched generalizing s with
  | nil =>
    simp only [ExecState.run] at hs
    injection hs with hs
    subst hs
    simp
  | cons a as ih =>
    simp only [ExecState.run] at hs
    cases hstep : s.step a with
    | none => rw [hstep] at hs; cases hs
    | some s1 =>
      rw [hstep] at hs
      rw [ih hs, ExecState.step_runs_length a hstep, List.countP_cons]
      omega

/-- In a state satisfying the invariant where every worker has exited, every submitted
task has been run once and is finished. -/
lemma ExecInv.all_exited {s : ExecState} (h : ExecInv s)
    (hall : ∀ w : Nat, w < s.workers.length → s.workers[w]? = some WorkerPc.exited) :
    ∀ i : Nat, i < s.runs.length → s.runs[i]? = some 1 ∧ s.finished[i]? = some true := by
  intro i hi
  have hempty : s.tasks_ = [] := (h.exited 0 (hall 0 h.nonempty)).2
  have hp : s.popped = s.runs.length := by simp [ExecState.popped, hempty]
  rcases h.popped i (by omega) with ⟨w, hw⟩ | hdone
  · have hwl : w < s.workers.length := by
      rcases hw with hw | hw <;> exact lt_length_of_getElem? hw
    have := hall w hwl
    rcases hw with hw | hw <;> (rw [hw] at this; cases this)
  · exact hdone

/-- In a state satisfying the invariant every task has been run at most once, and a
finished task exactly once. -/
lemma ExecInv.runs_le_one {s : ExecState} (h : ExecInv s) (i : Nat) (hi : i < s.runs.length) :
    (s.runs[i]? = some 0 ∧ s.finished[i]? = some false) ∨ s.runs[i]? = some 1 := by
  by_cases hp : i < s.popped
  · rcases h.popped i hp with ⟨w, hw | hw⟩ | hdone
    · exact Or.inl (h.running w i hw).2
    · exact Or.inr (h.ran w i hw).2.1
    · exact Or.inr hdone.1
  · exact Or.inl (h.queued i (by omega) hi)

end execution

namespace execution

/-! ## Effects of executor steps on the task records -/

lemma ExecState.Submit_effect {s s' : ExecState} {notified : Option Nat}
    (hs : s.Submit notified = some s') :
    s'.runs = s.runs ++ [0] ∧ s'.finished = s.finished ++ [false] ∧
    s'.is_working_ = true ∧ s'.workers.length = s.workers.length := by
  simp only [ExecState.Submit] at hs
  split at hs
  · rename_i hwk
    split at hs
    · rename_i ws hn
      injection hs with hs
      subst hs
      exact ⟨rfl, rfl, hwk, (notifyOne_spec hn).1⟩
    · cases hs
  · cases hs

lemma ExecState.WaitShutdown_effect {s s' : ExecState} (hs : s.WaitShutdown = some s') :
    s'.runs = s.runs ∧ s'.finished = s.finished ∧ s'.is_working_ = s.is_working_ ∧
    s'.workers = s.workers ∧ s'.joined = true := by
  simp only [ExecState.WaitShutdown] at hs
  split at hs
  · injection hs with hs
    subst hs
    exact ⟨rfl, rfl, rfl, rfl, rfl⟩
  · cases hs

/-- A worker step other than `run` leaves the run counts alone and keeps finished tasks
finished. -/
lemma ExecState.workerStep_idle_effect {s s' : ExecState} (a : WorkerAction)
    (ha : ∀ w : Nat, a ≠ WorkerAction.run w) (hs : s.workerStep a = some s') :
    s'.runs = s.runs ∧ s'.is_working_ = s.is_working_ ∧
    s'.workers.length = s.workers.length ∧
    ∀ j : Nat, s.finished[j]? = some true → s'.finished[j]? = some true := by
  cases a with
  | enter w =>
    simp only [ExecState.workerStep] at hs
    split at hs
    · split at hs
      · split at hs <;> (injection hs with hs; subst hs; exact ⟨rfl, rfl, by simp, fun _ h => h⟩)
      · injection hs with hs
        subst hs
        exact ⟨rfl, rfl, by simp, fun _ h => h⟩
    · cases hs
  | wake w =>
    simp only [ExecState.workerStep] at hs
    split at hs
    · injection hs with hs
      subst hs
      exact ⟨rfl, rfl, by simp, fun _ h => h⟩
    · cases hs
  | run w => exact absurd rfl (ha w)
  | setFinished w =>
    simp only [ExecState.workerStep] at hs
    split at hs
    · rename_i i hw
      injection hs with hs
      subst hs
      refine ⟨rfl, rfl, by simp, ?_⟩
      intro j hj
      simp only [List.getElem?_set]
      by_cases hij : i = j
      · subst hij
        simp [lt_length_of_getElem? hj]
      · simp [hij, hj]
    · cases hs

/-- The step `run w` of a worker that holds task `i` in a state with the invariant sets the
run count of task `i` from 0 to 1 and changes no other task record. -/
lemma ExecState.workerStep_run_effect {s s' : ExecState} (h : ExecInv s) (w i : Nat)
    (hw : s.workers[w]? = some (WorkerPc.running i))
    (hs : s.workerStep (.run w) = some s') :
    s.runs[i]? = some 0 ∧ s'.finished = s.finished ∧ s'.is_working_ = s.is_working_ ∧
    s'.workers.length = s.workers.length ∧ s'.runs.length = s.runs.length ∧
    ∀ j : Nat, s'.runs[j]? = if i = j then some 1 else s.runs[j]? := by
  obtain ⟨-, hri, -⟩ := h.running w i hw
  simp only [ExecState.workerStep, hw] at hs
  injection hs with hs
  subst hs
  have hrd : s.runs.getD i 0 + 1 = 1 := by
    simp [List.getD_eq_getElem?_getD, hri]
  refine ⟨hri, rfl, rfl, by simp, by simp, ?_⟩
  intro j
  simp only [hrd]
  exact getElem?_set_of hri 1 j

/-- A finished task has been run exactly once. -/
lemma ExecInv.finished_run {s : ExecState} (h : ExecInv s) (i : Nat)
    (hfin : s.finished[i]? = some true) : s.runs[i]? = some 1 := by
  have hi : i < s.runs.length := by
    rw [← h.len]
    exact lt_length_of_getElem? hfin
  rcases h.runs_le_one i hi with h0 | h1
  · rw [h0.2] at hfin
    cases hfin
  · exact h1

end execution

namespace signature

open execution

/-! ## Ordering pipeline -/

lemma PipeInv.at_start (hash : List Byte → Nat) (chunks : List (List Byte)) (n : Nat)
    (hn : 0 < n) : PipeInv hash (Pipeline.init chunks n) := by
  refine ⟨ExecInv.init n hn, ExecInv.init 1 (by decide), rfl, rfl,
    by simp [Pipeline.init, ExecState.init], by simp [Pipeline.init], ?_, ?_, ?_, ?_, ?_⟩
  · intro hw
    simp [Pipeline.init, ExecState.init] at hw
  · intro i hi
    simp [Pipeline.init, ExecState.init] at hi
  · intro i hi
    simp [Pipeline.init, ExecState.init] at hi
  · intro j
    simp [Pipeline.init, ExecState.init]
  · intro j hj
    simp [Pipeline.init] at hj

/-- A step that replaces the pools by pools with the same run counts, keeps finished
hashing tasks finished and touches neither the hashing tasks nor the output keeps the
invariant. -/
lemma PipeInv.frame {hash : List Byte → Nat} {p p' : Pipeline} (h : PipeInv hash p)
    (hc : p'.chunks = p.chunks) (ht : p'.hashing_tasks = p.hashing_tasks)
    (ho : p'.output = p.output)
    (hH : ExecInv p'.hashing_pool) (hW : ExecInv p'.writing_pool)
    (hone : p'.writing_pool.workers.length = 1)
    (hHr : p'.hashing_pool.runs = p.hashing_pool.runs)
    (hWr : p'.writing_pool.runs = p.writing_pool.runs)
    (hfin : ∀ j : Nat, p.hashing_pool.finished[j]? = some true →
      p'.hashing_pool.finished[j]? = some true)
    (hcl : p'.writing_pool.is_working_ = false →
      p'.writing_pool.runs.length = p'.chunks.length) :
    PipeInv hash p' := by
  refine ⟨hH, hW, hone, by rw [ht, hHr]; exact h.hlen, by rw [hWr, ht]; exact h.wle,
    by rw [ht, hc]; exact h.hle, hcl, ?_, ?_, ?_, ?_⟩
  · intro i hi
    rw [hc, ht]
    exact h.fresh i (hHr ▸ hi)
  · intro i hi
    rw [hc, ht]
    exact h.hashed i (hHr ▸ hi)
  · intro j
    rw [hWr, ho]
    exact h.written j
  · intro j hj
    rw [ho] at hj
    obtain ⟨c, h1, h2, h3⟩ := h.out j hj
    exact ⟨c, by rw [hc]; exact h1, by rw [ho]; exact h2, hfin j h3⟩

/-- A step of a hashing worker other than `run`. -/
lemma PipeInv.hashing_idle {hash : List Byte → Nat} {p : Pipeline} (h : PipeInv hash p)
    (a : WorkerAction) (ha : ∀ w : Nat, a ≠ WorkerAction.run w) (hp : ExecState)
    (hs : p.hashing_pool.workerStep a = some hp) :
    PipeInv hash { p with hashing_pool := hp } := by
  obtain ⟨hr, -, -, hf⟩ := ExecState.workerStep_idle_effect a ha hs
  exact h.frame rfl rfl rfl (h.hinv.step (.worker a) hs) h.winv h.wone hr rfl hf h.closed

/-- A step of the writing worker other than `run`. -/
lemma PipeInv.writing_idle {hash : List Byte → Nat} {p : Pipeline} (h : PipeInv hash p)
    (a : WorkerAction) (ha : ∀ w : Nat, a ≠ WorkerAction.run w) (wp : ExecState)
    (hs : p.writing_pool.workerStep a = some wp) :
    PipeInv hash { p with writing_pool := wp } := by
  obtain ⟨hr, hwk, hl, -⟩ := ExecState.workerStep_idle_effect a ha hs
  refine h.frame rfl rfl rfl h.hinv (h.winv.step (.worker a) hs) (by rw [hl]; exact h.wone)
    rfl hr (fun _ hj => hj) ?_
  intro hw
  show wp.runs.length = p.chunks.length
  rw [hr]
  exact h.closed (by rw [← hwk]; exact hw)

lemma PipeInv.output_le {hash : List Byte → Nat} {p : Pipeline} (h : PipeInv hash p) :
    p.output.length ≤ p.writing_pool.runs.length := by
  by_contra hc
  have hlt : p.writing_pool.runs.length < p.output.length := by omega
  have := (h.written p.writing_pool.runs.length).mpr hlt
  rw [List.getElem?_eq_none (Nat.le_refl _)] at this
  cases this

lemma PipeInv.submitHashing {hash : List Byte → Nat} {p p' : Pipeline} (h : PipeInv hash p)
    (notified : Option Nat) (hs : p.step hash (.submitHashing notified) = some p') :
    PipeInv hash p' := by
  simp only [Pipeline.step] at hs
  split at hs
  · rename_i hpair
    split at hs
    · rename_i chunk hp hchunk hsub
      injection hs with hs
      subst hs
      obtain ⟨hr, hf, -, -⟩ := ExecState.Submit_effect hsub
      have hlen := h.hlen
      have hclen : p.hashing_tasks.length < p.chunks.length := lt_length_of_getElem? hchunk
      refine ⟨h.hinv.submit notified hsub, h.winv, h.wone, by simp [hr, hlen],
        by simp only [List.length_append, List.length_singleton]; have := h.wle; omega,
        by simp only [List.length_append, List.length_singleton]; omega, h.closed,
        ?_, ?_, h.written, ?_⟩
      · intro i hi
        simp only [hr] at hi
        by_cases hlt : i < p.hashing_pool.runs.length
        · rw [List.getElem?_append_left hlt] at hi
          obtain ⟨c, h1, h2⟩ := h.fresh i hi
          exact ⟨c, h1, by rw [List.getElem?_append_left (by omega)]; exact h2⟩
        · have hie : i = p.hashing_tasks.length := by
            have := lt_length_of_getElem? hi
            simp only [List.length_append, List.length_singleton] at this
            omega
          subst hie
          exact ⟨chunk, hchunk, List.getElem?_concat_length _ _⟩
      · intro i hi
        simp only [hr] at hi
        by_cases hlt : i < p.hashing_pool.runs.length
        · rw [List.getElem?_append_left hlt] at hi
          obtain ⟨c, h1, h2⟩ := h.hashed i hi
          exact ⟨c, h1, by rw [List.getElem?_append_left (by omega)]; exact h2⟩
        · have hie : i = p.hashing_pool.runs.length := by
            have := lt_length_of_getElem? hi
            simp only [List.length_append, List.length_singleton] at this
            omega
          subst hie
          rw [List.getElem?_concat_length] at hi
          cases hi
      · intro j hj
        obtain ⟨c, h1, h2, h3⟩ := h.out j hj
        refine ⟨c, h1, h2, ?_⟩
        simp only [hf]
        rw [List.getElem?_append_left (lt_length_of_getElem? h3)]
        exact h3
    · cases hs
  · cases hs

lemma PipeInv.submitWriting {hash : List Byte → Nat} {p p' : Pipeline} (h : PipeInv hash p)
    (notified : Option Nat) (hs : p.step hash (.submitWriting notified) = some p') :
    PipeInv hash p' := by
  simp only [Pipeline.step] at hs
  split at hs
  · rename_i hlt
    split at hs
    · rename_i wp hsub
      injection hs with hs
      subst hs
      obtain ⟨hr, -, hwk, hl⟩ := ExecState.Submit_effect hsub
      have hout := h.output_le
      refine ⟨h.hinv, h.winv.submit notified hsub, by rw [hl]; exact h.wone, h.hlen,
        by simp only [hr, List.length_append, List.length_singleton]; omega, h.hle, ?_,
        h.fresh, h.hashed, ?_, h.out⟩
      · intro hw
        rw [hwk] at hw
        cases hw
      · intro j
        simp only [hr]
        by_cases hj : j < p.writing_pool.runs.length
        · rw [List.getElem?_append_left hj]
          exact h.written j
        · by_cases hje : j = p.writing_pool.runs.length
          · subst hje
            rw [List.getElem?_concat_length]
            constructor
            · intro h1; cases h1
            · intro h1; omega
          · rw [List.getElem?_eq_none (by
              simp only [List.length_append, List.length_singleton]; omega)]
            constructor
            · intro h1; cases h1
            · intro h1; omega
    · cases hs
  · cases hs

lemma PipeInv.hashingRun {hash : List Byte → Nat} {p p' : Pipeline} (h : PipeInv hash p)
    (w : Nat) (hs : p.hashingRun hash w = some p') : PipeInv hash p' := by
  simp only [Pipeline.hashingRun] at hs
  split at hs
  · rename_i i hp hw hstep
    split at hs
    · rename_i t ht
      injection hs with hs
      subst hs
      obtain ⟨hri, hf, -, -, hrl, hruns⟩ := ExecState.workerStep_run_effect h.hinv w i hw hstep
      obtain ⟨c, hc, htc⟩ := h.fresh i hri
      have hte : t = ⟨0, c⟩ := by
        rw [ht] at htc
        injection htc
      have htset := getElem?_set_of ht (t.Run hash)
      refine ⟨h.hinv.step (.worker (.run w)) hstep, h.winv, h.wone,
        by simp only [List.length_set, hrl]; exact h.hlen,
        by simp only [List.length_set]; exact h.wle,
        by simp only [List.length_set]; exact h.hle, h.closed, ?_, ?_, h.written, ?_⟩
      · intro j hj
        simp only [hruns] at hj
        by_cases hij : i = j
        · simp [hij] at hj
        · simp only [hij, if_false] at hj
          obtain ⟨c', h1, h2⟩ := h.fresh j hj
          exact ⟨c', h1, by simp only [htset, hij, if_false]; exact h2⟩
      · intro j hj
        simp only [hruns] at hj
        by_cases hij : i = j
        · subst hij
          refine ⟨c, hc, ?_⟩
          show (p.hashing_tasks.set i (t.Run hash))[i]? = _
          rw [htset i, if_pos rfl, hte]
          rfl
        · simp only [hij, if_false] at hj
          obtain ⟨c', h1, h2⟩ := h.hashed j hj
          exact ⟨c', h1, by simp only [htset, hij, if_false]; exact h2⟩
      · intro j hj
        obtain ⟨c', h1, h2, h3⟩ := h.out j hj
        exact ⟨c', h1, h2, by simp only [hf]; exact h3⟩
    · cases hs
  · cases hs

/-- The writing worker runs its tasks in submission order: the task it is about to run is
the one whose index is the number of records written so far. -/
lemma PipeInv.writer_next {hash : List Byte → Nat} {p : Pipeline} (h : PipeInv hash p)
    (w i : Nat) (hw : p.writing_pool.workers[w]? = some (WorkerPc.running i)) :
    i = p.output.length := by
  obtain ⟨hip, hri, -⟩ := h.winv.running w i hw
  have hw0 : w = 0 := by
    have := lt_length_of_getElem? hw
    rw [h.wone] at this
    omega
  have hge : p.output.length ≤ i := by
    by_contra hc
    have := (h.written i).mpr (by omega)
    rw [hri] at this
    cases this
  have hle : i ≤ p.output.length := by
    by_contra hc
    rcases h.winv.popped p.output.length (by omega) with ⟨w1, hw1⟩ | hdone
    · have hw10 : w1 = 0 := by
        have : w1 < p.writing_pool.workers.length := by
          rcases hw1 with hw1 | hw1 <;> exact lt_length_of_getElem? hw1
        rw [h.wone] at this
        omega
      rw [hw10, ← hw0, holds, hw] at hw1
      rcases hw1 with hw1 | hw1
      · injection hw1 with hw1
        injection hw1 with hw1
        omega
      · cases hw1
    · have := (h.written _).mp hdone.1
      omega
  omega

lemma PipeInv.writingRun {hash : List Byte → Nat} {p p' : Pipeline} (h : PipeInv hash p)
    (w : Nat) (hs : p.writingRun w = some p') : PipeInv hash p' := by
  simp only [Pipeline.writingRun] at hs
  split at hs
  · rename_i i wp hw hstep
    split at hs
    · rename_i hfin
      split at hs
      · rename_i t ht
        injection hs with hs
        subst hs
        obtain ⟨hri, -, hwk, hl, hrl, hruns⟩ :=
          ExecState.workerStep_run_effect h.winv w i hw hstep
        have hnext := h.writer_next w i hw
        obtain ⟨c, hc, htc⟩ := h.hashed i (h.hinv.finished_run i hfin)
        have hte : t.hash_value_ = hash c := by
          rw [ht] at htc
          injection htc with htc
          rw [htc]
        refine ⟨h.hinv, h.winv.step (.worker (.run w)) hstep, by rw [hl]; exact h.wone,
          h.hlen, by rw [hrl]; exact h.wle, h.hle, ?_, h.fresh, h.hashed, ?_, ?_⟩
        · intro hw'
          show wp.runs.length = p.chunks.length
          rw [hrl]
          exact h.closed (by rw [← hwk]; exact hw')
        · intro j
          simp only [hruns, List.length_append, List.length_singleton]
          by_cases hij : i = j
          · subst hij
            simp only [if_true, true_iff]
            omega
          · simp only [hij, if_false]
            rw [h.written j]
            omega
        · intro j hj
          simp only [List.length_append, List.length_singleton] at hj
          by_cases hjo : j < p.output.length
          · obtain ⟨c', h1, h2, h3⟩ := h.out j hjo
            exact ⟨c', h1, by simp only; rw [List.getElem?_append_left hjo]; exact h2, h3⟩
          · have hje : j = i := by omega
            subst hje
            refine ⟨c, hc, ?_, hfin⟩
            simp only
            rw [hnext, List.getElem?_concat_length, hte]
      · cases hs
    · cases hs
  · cases hs

/-- Every step keeps the invariant. -/
lemma PipeInv.of_step {hash : List Byte → Nat} {p p' : Pipeline} (h : PipeInv hash p)
    (a : PipelineAction) (hs : p.step hash a = some p') : PipeInv hash p' := by
  cases a with
  | submitHashing notified => exact h.submitHashing notified hs
  | submitWriting notified => exact h.submitWriting notified hs
  | shutdownWriting =>
    simp only [Pipeline.step] at hs
    split at hs
    · rename_i hdone
      injection hs with hs
      subst hs
      exact h.frame rfl rfl rfl h.hinv h.winv.startShutdown
        (by
          show (notifyAll p.writing_pool.workers).length = 1
          rw [(notifyAll_spec _).1]
          exact h.wone) rfl rfl (fun _ hj => hj)
        (fun _ => hdone.2)
    · cases hs
  | joinWriting =>
    simp only [Pipeline.step] at hs
    split at hs
    · split at hs
      · rename_i wp hwait
        injection hs with hs
        subst hs
        obtain ⟨hr, -, hwk, hws, -⟩ := ExecState.WaitShutdown_effect hwait
        refine h.frame rfl rfl rfl h.hinv (h.winv.waitShutdown hwait)
          (by rw [hws]; exact h.wone) rfl hr (fun _ hj => hj) ?_
        intro hw
        show wp.runs.length = p.chunks.length
        rw [hr]
        exact h.closed (by rw [← hwk]; exact hw)
      · cases hs
    · cases hs
  | shutdownHashing =>
    simp only [Pipeline.step] at hs
    split at hs
    · injection hs with hs
      subst hs
      exact h.frame rfl rfl rfl h.hinv.startShutdown h.winv h.wone rfl rfl (fun _ hj => hj)
        h.closed
    · cases hs
  | joinHashing =>
    simp only [Pipeline.step] at hs
    split at hs
    · split at hs
      · rename_i hp hwait
        injection hs with hs
        subst hs
        obtain ⟨hr, hf, -, -, -⟩ := ExecState.WaitShutdown_effect hwait
        exact h.frame rfl rfl rfl (h.hinv.waitShutdown hwait) h.winv h.wone hr rfl
          (fun j hj => by rw [hf]; exact hj) h.closed
      · cases hs
    · cases hs
  | hashing a =>
    cases a with
    | run w => exact h.hashingRun w hs
    | enter w =>
      simp only [Pipeline.step] at hs
      split at hs
      · rename_i hp hstep
        injection hs with hs
        subst hs
        exact h.hashing_idle _ (by simp) hp hstep
      · cases hs
    | wake w =>
      simp only [Pipeline.step] at hs
      split at hs
      · rename_i hp hstep
        injection hs with hs
        subst hs
        exact h.hashing_idle _ (by simp) hp hstep
      · cases hs
    | setFinished w =>
      simp only [Pipeline.step] at hs
      split at hs
      · rename_i hp hstep
        injection hs with hs
        subst hs
        exact h.hashing_idle _ (by simp) hp hstep
      · cases hs
  | writing a =>
    cases a with
    | run w => exact h.writingRun w hs
    | enter w =>
      simp only [Pipeline.step] at hs
      split at hs
      · rename_i wp hstep
        injection hs with hs
        subst hs
        exact h.writing_idle _ (by simp) wp hstep
      · cases hs
    | wake w =>
      simp only [Pipeline.step] at hs
      split at hs
      · rename_i wp hstep
        injection hs with hs
        subst hs
        exact h.writing_idle _ (by simp) wp hstep
      · cases hs
    | setFinished w =>
      simp only [Pipeline.step] at hs
      split at hs
      · rename_i wp hstep
        injection hs with hs
        subst hs
        exact h.writing_idle _ (by simp) wp hstep
      · cases hs

/-- Every state reached by a schedule satisfies the invariant. -/
lemma PipeInv.of_schedule {hash : List Byte → Nat} {p p' : Pipeline} (h : PipeInv hash p)
    (sched : List PipelineAction) (hs : p.run hash sched = some p') : PipeInv hash p' := by
  induction sched generalizing p with
  | nil =>
    simp only [Pipeline.run] at hs
    injection hs with hs
    subst hs
    exact h
  | cons a as ih =>
    simp only [Pipeline.run] at hs
    cases hstep : p.step hash a with
    | none => rw [hstep] at hs; cases hs
    | some p1 =>
      rw [hstep] at hs
      exact ih (h.of_step a hstep) hs

/-- The chunk list is never changed. -/
lemma Pipeline.run_chunks {hash : List Byte → Nat} {p p' : Pipeline}
    (sched : List PipelineAction) (hs : p.run hash sched = some p') : p'.chunks = p.chunks := by
  induction sched generalizing p with
  | nil =>
    simp only [Pipeline.run] at hs
    injection hs with hs
    subst hs
    rfl
  | cons a as ih =>
    simp only [Pipeline.run] at hs
    cases hstep : p.step hash a with
    | none => rw [hstep] at hs; cases hs
    | some p1 =>
      rw [hstep] at hs
      rw [ih hs]
      cases a with
      | submitHashing n =>
        simp only [Pipeline.step] at hstep
        split at hstep
        · split at hstep
          · injection hstep with hstep; subst hstep; rfl
          · cases hstep
        · cases hstep
      | submitWriting n =>
        simp only [Pipeline.step] at hstep
        split at hstep
        · split at hstep
          · injection hstep with hstep; subst hstep; rfl
          · cases hstep
        · cases hstep
      | shutdownWriting =>
        simp only [Pipeline.step] at hstep
        split at hstep
        · injection hstep with hstep; subst hstep; rfl
        · cases hstep
      | joinWriting =>
        simp only [Pipeline.step] at hstep
        split at hstep
        · split at hstep
          · injection hstep with hstep; subst hstep; rfl
          · cases hstep
        · cases hstep
      | shutdownHashing =>
        simp only [Pipeline.step] at hstep
        split at hstep
        · injection hstep with hstep; subst hstep; rfl
        · cases hstep
      | joinHashing =>
        simp only [Pipeline.step] at hstep
        split at hstep
        · split at hstep
          · injection hstep with hstep; subst hstep; rfl
          · cases hstep
        · cases hstep
      | hashing a =>
        cases a with
        | run w =>
          simp only [Pipeline.step, Pipeline.hashingRun] at hstep
          split at hstep
          · split at hstep
            · injection hstep with hstep; subst hstep; rfl
            · cases hstep
          · cases hstep
        | enter w =>
          simp only [Pipeline.step] at hstep
          split at hstep
          · injection hstep with hstep; subst hstep; rfl
          · cases hstep
        | wake w =>
          simp only [Pipeline.step] at hstep
          split at hstep
          · injection hstep with hstep; subst hstep; rfl
          · cases hstep
        | setFinished w =>
          simp only [Pipeline.step] at hstep
          split at hstep
          · injection hstep with hstep; subst hstep; rfl
          · cases hstep
      | writing a =>
        cases a with
        | run w =>
          simp only [Pipeline.step, Pipeline.writingRun] at hstep
          split at hstep
          · split at hstep
            · split at hstep
              · injection hstep with hstep; subst hstep; rfl
              · cases hstep
            · cases hstep
          · cases hstep
        | enter w =>
          simp only [Pipeline.step] at hstep
          split at hstep
          · injection hstep with hstep; subst hstep; rfl
          · cases hstep
        | wake w =>
          simp only [Pipeline.step] at hstep
          split at hstep
          · injection hstep with hstep; subst hstep; rfl
          · cases hstep
        | setFinished w =>
          simp only [Pipeline.step] at hstep
          split at hstep
          · injection hstep with hstep; subst hstep; rfl
          · cases hstep

end signature

open signature execution

/-- C8: for a four-argument invocation whose third argument is the decimal representation
of an `int` value `n`, `ParseArguments` succeeds exactly when `1 ≤ n ≤ 4000`; then
`batchSize = n * 1048576` and the file names are `argv[1]` and `argv[2]`; otherwise (zero,
negative, above 4000) `is_success` is false, the error message is the non-empty block-size
diagnostic, and `main` returns `-1` without reaching `CalculateSignature`. -/
theorem ParseArguments_decimal_chunk_size (a0 a1 a2 : String) (n : Int)
    (hlo : INT_MIN ≤ n) (hhi : n ≤ INT_MAX) :
    ((ParseArguments 4 [a0, a1, a2, Int.repr n]).is_success = true ↔ 1 ≤ n ∧ n ≤ 4000) ∧
    (1 ≤ n ∧ n ≤ 4000 →
      ((ParseArguments 4 [a0, a1, a2, Int.repr n]).batchSize : Int) = n * 1048576 ∧
      (ParseArguments 4 [a0, a1, a2, Int.repr n]).input_file_name = a1 ∧
      (ParseArguments 4 [a0, a1, a2, Int.repr n]).output_file_name = a2) ∧
    (¬ (1 ≤ n ∧ n ≤ 4000) →
      (ParseArguments 4 [a0, a1, a2, Int.repr n]).is_success = false ∧
      (ParseArguments 4 [a0, a1, a2, Int.repr n]).error_message = blocksize_message ∧
      (ParseArguments 4 [a0, a1, a2, Int.repr n]).error_message ≠ "" ∧
      Main.main 4 [a0, a1, a2, Int.repr n] = .exited (-1) (blocksize_message ++ "\n") ∧
      (-1 : Int) ≠ 0) := by
  have hst : stoi ([a0, a1, a2, Int.repr n].getD 3 "") = .ok n := stoi_repr n hlo hhi
  have hP := ParseArguments_four [a0, a1, a2, Int.repr n] n hst
  by_cases hr : 1 ≤ n ∧ n ≤ 4000
  · have hsz : toSizeT n = n.toNat := toSizeT_of_nonneg n (by omega) hhi
    have hin : ¬ (toSizeT n < 1 ∨ toSizeT n > 4000) := by rw [hsz]; omega
    rw [if_neg hin] at hP
    rw [hP]
    refine ⟨by simp [hr], fun _ => ⟨?_, rfl, rfl⟩, fun h => absurd hr h⟩
    simp only [hsz, kMBtoBytes, SIZE_MOD]
    omega
  · have hout : toSizeT n < 1 ∨ toSizeT n > 4000 := by
      by_cases h0 : 0 ≤ n
      · rw [toSizeT_of_nonneg n h0 hhi]; omega
      · right; exact toSizeT_of_neg n hlo (by omega)
    rw [if_pos hout] at hP
    have hne : blocksize_message ≠ "" := by decide
    refine ⟨by simp [hP, hr], fun h => absurd h hr,
      fun _ => ⟨by rw [hP], by rw [hP], by rw [hP]; exact hne, ?_, by decide⟩⟩
    simp [Main.main, hP]

/-- Witness of C8 at `n = 4000`, the upper end of the accepted range. -/
theorem ParseArguments_decimal_chunk_size_witness :
    INT_MIN ≤ 4000 ∧ (4000 : Int) ≤ INT_MAX ∧
    (ParseArguments 4 ["signature", "in.bin", "out.sig", Int.repr 4000]).batchSize
      = 4194304000 := by
  refine ⟨by decide, by decide, ?_⟩
  have h := (ParseArguments_decimal_chunk_size "signature" "in.bin" "out.sig" 4000
    (by decide) (by decide)).2.1 ⟨by decide, by decide⟩
  exact_mod_cast h.1

/-- C10: for every argument count other than 3 and 4, `ParseArguments` fails with the usage
diagnostic and leaves the file names and `batchSize` at their defaults, and `main` writes
the diagnostic to the error stream and returns `-1` without reaching `CalculateSignature`. -/
theorem ParseArguments_wrong_argc (argc : Int) (argv : List String)
    (h3 : argc ≠ 3) (h4 : argc ≠ 4) :
    (ParseArguments argc argv).is_success = false ∧
    (ParseArguments argc argv).error_message = usage_message ∧
    (ParseArguments argc argv).input_file_name = "" ∧
    (ParseArguments argc argv).output_file_name = "" ∧
    (ParseArguments argc argv).batchSize = 1048576 ∧
    Main.main argc argv = .exited (-1) (usage_message ++ "\n") ∧
    (-1 : Int) ≠ 0 := by
  have hP : ParseArguments argc argv = { error_message := usage_message } := by
    simp only [ParseArguments, h3, h4, if_false]
  refine ⟨by rw [hP], by rw [hP], by rw [hP], by rw [hP], by rw [hP]; rfl, ?_, by decide⟩
  simp [Main.main, hP]

/-- Witness of C10: two arguments. -/
theorem ParseArguments_wrong_argc_witness :
    (2 : Int) ≠ 3 ∧ (2 : Int) ≠ 4 ∧
    Main.main 2 ["signature", "in.bin"] = .exited (-1) (usage_message ++ "\n") :=
  ⟨by decide, by decide,
    (ParseArguments_wrong_argc 2 ["signature", "in.bin"] (by decide) (by decide)).2.2.2.2.2.1⟩

/-- C9, counterexample: `"12abc"` and `"3.5"` are not, in their entirety, decimal integers
(each contains a character that is not a digit), yet `ParseArguments` accepts them, with
the chunk sizes 12 MB and 3 MB. -/
theorem ParseArguments_accepts_numeric_prefix :
    "12abc".data.all isdigit = false ∧ "3.5".data.all isdigit = false ∧
    (ParseArguments 4 ["signature", "in.bin", "out.sig", "12abc"]).is_success = true ∧
    (ParseArguments 4 ["signature", "in.bin", "out.sig", "12abc"]).batchSize = 12 * 1048576 ∧
    (ParseArguments 4 ["signature", "in.bin", "out.sig", "3.5"]).is_success = true ∧
    (ParseArguments 4 ["signature", "in.bin", "out.sig", "3.5"]).batchSize = 3 * 1048576 := by
  decide

/-- C9, amended: when the third of four arguments does not start, after optional white
space and an optional sign, with a decimal digit (an empty or non-numeric string),
`ParseArguments` fails with the diagnostic `Bad batch size input: ` followed by the
argument, and `main` returns `-1` without reaching `CalculateSignature`. -/
theorem ParseArguments_rejects_unparsable (argv : List String)
    (h : ∀ (ws sign rest : List Char) (d : Char),
      (argv.getD 3 "").data = ws ++ sign ++ d :: rest →
      (∀ c ∈ ws, isspace c = true) → (sign = [] ∨ sign = ['+'] ∨ sign = ['-']) →
      isdigit d = false) :
    (ParseArguments 4 argv).is_success = false ∧
    (ParseArguments 4 argv).error_message = "Bad batch size input: " ++ argv.getD 3 "" ∧
    Main.main 4 argv = .exited (-1) ("Bad batch size input: " ++ argv.getD 3 "" ++ "\n") := by
  have hnone : strtol (argv.getD 3 "").data = none := by
    cases hs : strtol (argv.getD 3 "").data with
    | none => rfl
    | some v =>
      obtain ⟨ws, sign, rest, d, hdec, hall, hsign, hd⟩ := strtol_some_decomp _ v hs
      have := h ws sign rest d hdec hall hsign
      rw [hd] at this
      exact absurd this (by decide)
  have hst : stoi (argv.getD 3 "") = .error .invalid_argument := by
    simp only [stoi, hnone]
  have hP := ParseArguments_four_error argv _ hst
  refine ⟨by rw [hP], by rw [hP], ?_⟩
  simp [Main.main, hP]

/-- Witness of the amended C9: the non-numeric argument `"abc"`. -/
theorem ParseArguments_rejects_unparsable_witness :
    (ParseArguments 4 ["signature", "in.bin", "out.sig", "abc"]).is_success = false ∧
    (ParseArguments 4 ["signature", "in.bin", "out.sig", "abc"]).error_message
      = "Bad batch size input: abc" := by
  have h := ParseArguments_rejects_unparsable ["signature", "in.bin", "out.sig", "abc"] (by
    intro ws sign rest d hdec hall hsign
    have hdata : (["signature", "in.bin", "out.sig", "abc"].getD 3 "").data = ['a', 'b', 'c'] := rfl
    rw [hdata] at hdec
    cases ws with
    | cons w ws' =>
      simp only [List.cons_append, List.cons.injEq] at hdec
      have := hall w (List.mem_cons_self _ _)
      rw [← hdec.1] at this
      exact absurd this (by decide)
    | nil =>
      rcases hsign with hs | hs | hs
      · subst hs
        simp only [List.nil_append, List.cons.injEq] at hdec
        rw [← hdec.1]
        decide
      · subst hs
        simp only [List.nil_append, List.cons_append, List.cons.injEq] at hdec
        exact absurd hdec.1 (by decide)
      · subst hs
        simp only [List.nil_append, List.cons_append, List.cons.injEq] at hdec
        exact absurd hdec.1 (by decide))
  exact ⟨h.1, h.2.1⟩

/-- C3: for every input and every positive chunk size `c`, the read loop of
`CalculateSignature` ends (within `input.length + 1` iterations, whatever the fuel above
that) and has then created exactly `ceil (input.length / c)` hashing/writing task pairs:
none for an empty input, and `input.length / c` when the length is a multiple of `c`. -/
theorem readLoop_task_count (input : List Byte) (c : Int) (hc : 0 < c) :
    ∃ (r : Reader) (tasks : List HashingTask),
      Reader.new (some input) c = .ok r ∧
      (∀ fuel, input.length < fuel → readLoop fuel r = some (.ok tasks)) ∧
      tasks.length = (input.length + c.toNat - 1) / c.toNat ∧
      (input.length = 0 → tasks.length = 0) ∧
      (input.length % c.toNat = 0 → tasks.length = input.length / c.toNat) := by
  obtain ⟨n, rfl⟩ : ∃ n : Nat, c = (n : Int) := ⟨c.toNat, by omega⟩
  have hn : 0 < n := by omega
  obtain ⟨tasks, hrun, hlen, -⟩ := readLoop_good input n hn (input.length + 1) 0 0 []
    (Nat.zero_le _) (by omega)
  simp only [Nat.sub_zero] at hlen
  refine ⟨_, tasks, rfl, ?_, by simpa using hlen, ?_, ?_⟩
  · intro fuel hfuel
    -- the result does not depend on the fuel: both runs give the same buckets
    obtain ⟨tasks3, hrun3, hlen3, hget3⟩ := readLoop_good input n hn fuel 0 0 []
      (Nat.zero_le _) (by omega)
    obtain ⟨tasks1, hrun1, hlen1, hget1⟩ := readLoop_good input n hn (input.length + 1) 0 0 []
      (Nat.zero_le _) (by omega)
    have h13 : tasks3 = tasks1 := by
      apply List.ext_getElem?
      intro i
      by_cases hi : i < tasks1.length
      · rw [hget1 i hi, hget3 i (by omega)]
      · rw [List.getElem?_eq_none (by omega), List.getElem?_eq_none (by omega)]
    have h1 : tasks1 = tasks := by
      have := hrun1.symm.trans hrun
      simpa using this
    rw [hrun3, h13, h1]
  · intro h0
    rw [hlen, h0]
    simp only [Int.toNat_ofNat, Nat.zero_add]
    exact Nat.div_eq_of_lt (by omega)
  · intro hmod
    rw [hlen]
    simp only [Int.toNat_ofNat] at hmod ⊢
    obtain ⟨q, hq⟩ := Nat.dvd_of_mod_eq_zero hmod
    rw [hq, Nat.mul_div_cancel_left _ hn]
    have h1 : n * q + n - 1 = (n - 1) + q * n := by
      have : n * q = q * n := Nat.mul_comm _ _
      omega
    rw [h1, Nat.add_mul_div_right _ _ hn, Nat.div_eq_of_lt (by omega)]
    omega

/-- Witness of C3: a 2.5 MiB input with 1 MiB chunks gives exactly 3 task pairs. -/
theorem readLoop_task_count_witness :
    (0 : Int) < 1048576 ∧
    ∃ (r : Reader) (tasks : List HashingTask),
      Reader.new (some (List.replicate 2621440 0)) 1048576 = .ok r ∧
      (∀ fuel, 2621440 < fuel → readLoop fuel r = some (.ok tasks)) ∧
      tasks.length = 3 := by
  refine ⟨by decide, ?_⟩
  obtain ⟨r, tasks, hr, hrun, hlen, -, -⟩ :=
    readLoop_task_count (List.replicate 2621440 0) 1048576 (by decide)
  refine ⟨r, tasks, hr, ?_, ?_⟩
  · intro fuel hfuel
    exact hrun fuel (by rw [List.length_replicate]; exact hfuel)
  · rw [hlen, List.length_replicate]
    rfl

/-- C1, counterexample: for the 5-byte input `1 2 3 4 5` and `c = 2` the loop hands the
hashing tasks the byte strings `1 2`, `3 4` and `5 0`, of lengths 2, 2, 2, whereas the
third 2-byte slice of the input is the single byte `5`. -/
theorem readLoop_final_chunk_not_short :
    (Reader.new (some [1, 2, 3, 4, 5]) 2).map (readLoop 6)
      = .ok (some (.ok [⟨0, [1, 2]⟩, ⟨0, [3, 4]⟩, ⟨0, [5, 0]⟩])) ∧
    inputSlice [1, 2, 3, 4, 5] 2 2 = [5] ∧
    ([1, 2, 3, 4, 5] : List Byte).length % 2 ≠ 0 ∧
    ¬ (([5, 0] : List Byte).length < 2) ∧
    ([5, 0] : List Byte) ≠ inputSlice [1, 2, 3, 4, 5] 2 2 := by
  decide

/-- C1, amended: for every input and every positive chunk size `c`, the read loop ends and
the bucket of hashing task `i` is the `i`-th `c`-byte slice of the input filled up with
zero bytes to exactly `c` bytes; it is the slice itself when the slice is full (always,
except for the final slice of an input whose length is not a multiple of `c`), and `Run`
stores the hash of that bucket. -/
theorem readLoop_chunks_padded (hash : List Byte → Nat) (input : List Byte) (c : Int)
    (hc : 0 < c) :
    ∃ (r : Reader) (tasks : List HashingTask),
      Reader.new (some input) c = .ok r ∧
      (∀ fuel, input.length < fuel → readLoop fuel r = some (.ok tasks)) ∧
      tasks.length = (input.length + c.toNat - 1) / c.toNat ∧
      ∀ i, i < tasks.length →
        ∃ t : HashingTask, tasks[i]? = some t ∧
          t.bucket_ = paddedSlice input c.toNat i ∧
          t.bucket_.length = c.toNat ∧
          ((i + 1) * c.toNat ≤ input.length → t.bucket_ = inputSlice input c.toNat i) ∧
          (t.Run hash).hash_value_ = hash (paddedSlice input c.toNat i) := by
  obtain ⟨r, tasks, hr, hrun, hlen, -, -⟩ := readLoop_task_count input c hc
  obtain ⟨n, rfl⟩ : ∃ n : Nat, c = (n : Int) := ⟨c.toNat, by omega⟩
  have hn : 0 < n := by omega
  obtain ⟨tasks1, hrun1, -, hget1⟩ := readLoop_good input n hn (input.length + 1) 0 0 []
    (Nat.zero_le _) (by omega)
  have hr0 : r = ⟨(n : Int), ⟨input, 0, false, false, 0⟩, []⟩ := by
    have : Reader.new (some input) (n : Int)
        = .ok ⟨(n : Int), ⟨input, 0, false, false, 0⟩, []⟩ := rfl
    rw [this] at hr
    injection hr with hr
    exact hr.symm
  have h1 : tasks1 = tasks := by
    have := hrun1.symm.trans (hr0 ▸ hrun (input.length + 1) (by omega))
    simpa using this
  subst h1
  refine ⟨r, tasks1, hr, hrun, hlen, ?_⟩
  intro i hi
  simp only [Int.toNat_ofNat]
  have hslice : (inputSlice input n i).length ≤ n := by
    simp only [inputSlice, List.length_take]
    omega
  have hti : tasks1[i]? = some ⟨0, paddedSlice input n i⟩ := by
    have := hget1 i hi
    rw [Nat.zero_add] at this
    exact this
  refine ⟨_, hti, rfl, ?_, ?_, rfl⟩
  · show (padTo n (inputSlice input n i)).length = n
    simp only [padTo, List.length_append, List.length_replicate]
    omega
  · intro hfull
    have hl : (inputSlice input n i).length = n := by
      simp only [inputSlice, List.length_take, List.length_drop]
      have : (i + 1) * n = i * n + n := by ring
      omega
    show padTo n (inputSlice input n i) = inputSlice input n i
    simp [padTo, hl]

/-- Witness of the amended C1: the 5-byte input with `c = 2`; the third bucket is `5 0`. -/
theorem readLoop_chunks_padded_witness :
    (0 : Int) < 2 ∧
    ∃ (r : Reader) (tasks : List HashingTask),
      Reader.new (some [1, 2, 3, 4, 5]) 2 = .ok r ∧
      readLoop 6 r = some (.ok tasks) ∧ tasks.length = 3 ∧
      ∃ t : HashingTask, tasks[2]? = some t ∧ t.bucket_ = [5, 0] := by
  refine ⟨by decide, ?_⟩
  obtain ⟨r, tasks, hr, hrun, hlen, hget⟩ :=
    readLoop_chunks_padded (fun b => b.length) [1, 2, 3, 4, 5] 2 (by decide)
  have hlen3 : tasks.length = 3 := by rw [hlen]; rfl
  obtain ⟨t, ht, hb, -⟩ := hget 2 (by omega)
  exact ⟨r, tasks, hr, hrun 6 (by decide), hlen3, t, ht, by rw [hb]; decide⟩

/-- C4, the code at `n = 2048`: `ParseArguments` accepts the argument with
`batchSize = 2048 * 1048576 = 2 ^ 31`, the narrowing to `int` gives `-2147483648`, and
the first `ReadChunk` of `CalculateSignature` throws instead of reading a 2048 MB block. -/
theorem CalculateSignature_2048_throws :
    (ParseArguments 4 ["signature", "in.bin", "out.sig", "2048"]).is_success = true ∧
    (ParseArguments 4 ["signature", "in.bin", "out.sig", "2048"]).batchSize = 2048 * 1048576 ∧
    toInt32 (ParseArguments 4 ["signature", "in.bin", "out.sig", "2048"]).batchSize
      = -2147483648 ∧
    ∀ (fuel : Nat) (input : List Byte),
      CalculateSignature (fuel + 1) (some input)
          (ParseArguments 4 ["signature", "in.bin", "out.sig", "2048"])
        = some (.error "Can not allocate memory for a new batch...") := by
  refine ⟨by decide, by decide, by decide, ?_⟩
  intro fuel input
  have hb : toInt32 (ParseArguments 4 ["signature", "in.bin", "out.sig", "2048"]).batchSize
      = -2147483648 := by decide
  simp only [CalculateSignature, hb, Reader.new, readLoop, Reader.ReadChunk]
  rfl

/-- C6, the code on one waiter: the waiter locks `mutex_` and reads `is_finished_ = false`;
`SetFinished`, which does not take `mutex_`, then stores `true` and notifies while nobody
is blocked; the waiter then blocks. The state reached has `is_finished_ = true`, the
`notify_all` delivered and the waiter blocked, and the only action enabled in it is a
spurious wakeup: no step of the program wakes the waiter. -/
theorem Task_Wait_lost_wakeup :
    (TaskState.init 1).run [.lock 0, .test 0, .store, .notify_all]
      = some ⟨true, some 0, [.toWait], .notified⟩ ∧
    (TaskState.init 1).run [.lock 0, .test 0, .store, .notify_all, .wait 0]
      = some ⟨true, none, [.blocked], .notified⟩ ∧
    ∀ a : TaskAction,
      (TaskState.step ⟨true, none, [.blocked], .notified⟩ a).isSome = true → a = .spurious 0 := by
  refine ⟨by decide, by decide, ?_⟩
  intro a h
  cases a with
  | lock i => cases i <;> simp [TaskState.step] at h
  | test i => cases i <;> simp [TaskState.step] at h
  | wait i => cases i <;> simp [TaskState.step] at h
  | reacquire i => cases i <;> simp [TaskState.step] at h
  | spurious i =>
    cases i with
    | zero => rfl
    | succ i => simp [TaskState.step] at h
  | store => simp [TaskState.step] at h
  | notify_all => simp [TaskState.step] at h

/-- C5, the code on the history `StartShutdown` alone: `is_working_` is already false when
the destructor runs, so its body neither shuts down nor joins, and the joinable worker
threads are destroyed (`std::terminate`), for every worker count `n + 1` and whatever was
submitted before; with `WaitShutdown` after `StartShutdown`, or with no shutdown call at
all, the destructor returns with every thread joined. -/
theorem Executor_destroy_after_StartShutdown :
    (∀ (n : Nat) (tasks : List Nat),
      Lifecycle.lifetime (n + 1) (tasks.map .Submit ++ [.StartShutdown]) = .terminates) ∧
    (∀ n : Nat, Lifecycle.lifetime (n + 1) [.StartShutdown, .WaitShutdown]
      = .returns ⟨false, List.replicate (n + 1) false, []⟩) ∧
    (∀ n : Nat, Lifecycle.lifetime (n + 1) []
      = .returns ⟨false, List.replicate (n + 1) false, []⟩) := by
  have hsub : ∀ (tasks : List Nat) (e : Lifecycle),
      e.calls (tasks.map .Submit ++ [.StartShutdown])
        = .returns ⟨false, e.joinable, e.tasks_ ++ tasks⟩ := by
    intro tasks
    induction tasks with
    | nil => intro e; simp [Lifecycle.calls, Lifecycle.StartShutdown]
    | cons t ts ih =>
      intro e
      simp [Lifecycle.calls, ih, Lifecycle.Submit]
  refine ⟨?_, ?_, ?_⟩
  · intro n tasks
    simp [Lifecycle.lifetime, hsub, Lifecycle.new, Lifecycle.destroy, List.replicate_succ]
  · intro n
    have h := Lifecycle.joinAll_shutdown (n + 1)
    simp only [Lifecycle.lifetime, Lifecycle.calls, Lifecycle.new, Lifecycle.StartShutdown,
      Lifecycle.WaitShutdown, h, Lifecycle.destroy]
    simp
  · intro n
    have h := Lifecycle.joinAll_shutdown (n + 1)
    simp only [Lifecycle.lifetime, Lifecycle.calls, Lifecycle.new, Lifecycle.StartShutdown,
      Lifecycle.WaitShutdown, h, Lifecycle.destroy, if_true]
    simp

/-- C7: in every state an executor with `n ≥ 1` workers reaches by any schedule of owner
calls (`Submit` only before `StartShutdown`) and worker steps, the number of task records
is the number of `Submit` calls, every task has been run at most once and is held by at
most one worker, a finished task has been run exactly once, a worker has exited only with
shutdown requested and the queue empty, and when all workers have exited (in particular
once the joins of `WaitShutdown` have returned) every submitted task has been run exactly
once and is finished. -/
theorem Executor_runs_every_task_once (n : Nat) (hn : 1 ≤ n) (sched : List ExecAction)
    (s : ExecState) (hs : (ExecState.init n).run sched = some s) :
    s.runs.length = sched.countP ExecAction.isSubmit ∧
    (∀ i : Nat, i < s.runs.length → s.runs[i]? = some 0 ∨ s.runs[i]? = some 1) ∧
    (∀ i : Nat, s.finished[i]? = some true → s.runs[i]? = some 1) ∧
    (∀ w w' i : Nat, holds s.workers w i → holds s.workers w' i → w = w') ∧
    (∀ w : Nat, s.workers[w]? = some WorkerPc.exited → s.is_working_ = false ∧ s.tasks_ = []) ∧
    ((∀ w : Nat, w < n → s.workers[w]? = some WorkerPc.exited) →
      ∀ i : Nat, i < s.runs.length → s.runs[i]? = some 1 ∧ s.finished[i]? = some true) ∧
    (s.joined = true →
      ∀ i : Nat, i < s.runs.length → s.runs[i]? = some 1 ∧ s.finished[i]? = some true) := by
  have hinv : ExecInv s := (ExecInv.init n (by omega)).run_schedule sched hs
  have hlen : s.workers.length = n := by
    rw [ExecState.run_workers_length sched hs]
    simp [ExecState.init]
  have hcount := ExecState.run_runs_length sched hs
  refine ⟨by simpa [ExecState.init] using hcount, ?_, ?_, hinv.unique, hinv.exited, ?_, ?_⟩
  · intro i hi
    rcases hinv.runs_le_one i hi with h0 | h1
    · exact Or.inl h0.1
    · exact Or.inr h1
  · intro i hfin
    have hi : i < s.runs.length := by
      rw [← hinv.len]
      exact lt_length_of_getElem? hfin
    rcases hinv.runs_le_one i hi with h0 | h1
    · rw [h0.2] at hfin
      cases hfin
    · exact h1
  · intro hall
    exact hinv.all_exited (fun w hw => hall w (by omega))
  · intro hj
    exact hinv.all_exited (hinv.joined hj)

/-- Witness of C7: two workers and one task; worker 0 goes to sleep, the task is submitted
and wakes it, worker 1 pops and runs the task, shutdown is requested while the task is
still running, both workers exit and the joins return. -/
theorem Executor_runs_every_task_once_witness :
    1 ≤ 2 ∧
    (ExecState.init 2).run [.worker (.enter 0), .owner (.submit (some 0)),
      .worker (.enter 1), .worker (.run 1), .owner .startShutdown, .worker (.enter 0),
      .worker (.setFinished 1), .worker (.enter 1), .owner .waitShutdown]
      = some ⟨false, [], [.exited, .exited], [1], [true], true⟩ ∧
    (⟨false, [], [.exited, .exited], [1], [true], true⟩ : ExecState).runs[0]? = some 1 := by
  refine ⟨by decide, by decide, ?_⟩
  exact ((Executor_runs_every_task_once 2 (by decide) _ _
    (by decide : (ExecState.init 2).run [.worker (.enter 0), .owner (.submit (some 0)),
      .worker (.enter 1), .worker (.run 1), .owner .startShutdown, .worker (.enter 0),
      .worker (.setFinished 1), .worker (.enter 1), .owner .waitShutdown]
      = some ⟨false, [], [.exited, .exited], [1], [true], true⟩)).2.2.2.2.2.2 rfl 0
    (by decide)).1

/-- C2: in every state the pipeline (a hashing pool of `n ≥ 1` workers, a writing pool of
one worker, `WritingTask::Run` waiting for its paired hashing task) reaches by any
schedule, the digests written so far are a prefix of `hash chunk_0, hash chunk_1, ...` in
submission order, every written record belongs to a hashing task that is finished, and
once the joins of the writing pool have returned the output is the whole sequence. -/
theorem Pipeline_output_in_chunk_order (hash : List Byte → Nat) (chunks : List (List Byte))
    (n : Nat) (hn : 1 ≤ n) (sched : List PipelineAction) (p : Pipeline)
    (hs : (Pipeline.init chunks n).run hash sched = some p) :
    p.output <+: chunks.map hash ∧
    p.output = (chunks.take p.output.length).map hash ∧
    (∀ j : Nat, j < p.output.length → p.hashing_pool.finished[j]? = some true) ∧
    (p.writing_pool.joined = true → p.output = chunks.map hash) := by
  have hinv : PipeInv hash p := (PipeInv.at_start hash chunks n (by omega)).of_schedule sched hs
  have hch : p.chunks = chunks := Pipeline.run_chunks sched hs
  have htake : p.output = (chunks.map hash).take p.output.length := by
    apply List.ext_getElem?
    intro j
    by_cases hj : j < p.output.length
    · obtain ⟨c, h1, h2, -⟩ := hinv.out j hj
      rw [hch] at h1
      rw [h2, List.getElem?_take_of_lt hj, List.getElem?_map, h1]
      rfl
    · rw [List.getElem?_eq_none (by omega), List.getElem?_eq_none (by
        rw [List.length_take]; omega)]
  refine ⟨?_, ?_, fun j hj => (hinv.out j hj).choose_spec.2.2, ?_⟩
  · rw [htake]
    exact List.take_prefix _ _
  · rw [List.map_take]
    exact htake
  · intro hj
    have hex := hinv.winv.joined hj
    have hall := hinv.winv.all_exited hex
    have hwk := (hinv.winv.exited 0 (hex 0 hinv.winv.nonempty)).1
    have hlen := hinv.closed hwk
    rw [hch] at hlen
    have hge : chunks.length ≤ p.output.length := by
      by_contra hc
      have hlt : p.output.length < p.writing_pool.runs.length := by omega
      have := (hinv.written _).mp (hall _ hlt).1
      omega
    rw [htake]
    exact List.take_of_length_le (by rw [List.length_map]; exact hge)

/-- Witness of C2: two chunks, two hashing workers; the hashing task of chunk 1 finishes
before the one of chunk 0, the writer waits for chunk 0, and the records come out in chunk
order. -/
theorem Pipeline_output_in_chunk_order_witness :
    1 ≤ 2 ∧
    (Pipeline.init [[1, 2], [3]] 2).run (fun b => b.length + 10)
      [.submitHashing none, .submitWriting none, .submitHashing none, .submitWriting none,
       .hashing (.enter 0), .hashing (.enter 1), .hashing (.run 1), .hashing (.setFinished 1),
       .writing (.enter 0), .hashing (.run 0), .hashing (.setFinished 0), .writing (.run 0),
       .writing (.setFinished 0), .writing (.enter 0), .writing (.run 0),
       .writing (.setFinished 0), .shutdownWriting, .writing (.enter 0), .joinWriting]
      = some ⟨[[1, 2], [3]], ⟨true, [], [.ready, .ready], [1, 1], [true, true], false⟩,
          ⟨false, [], [.exited], [1, 1], [true, true], true⟩, [⟨12, []⟩, ⟨11, []⟩], [12, 11]⟩ ∧
    ([12, 11] : List Nat) = [[1, 2], [3]].map (fun b : List Byte => b.length + 10) := by
  refine ⟨by decide, by decide, ?_⟩
  exact (Pipeline_output_in_chunk_order (fun b => b.length + 10) [[1, 2], [3]] 2 (by decide)
    [.submitHashing none, .submitWriting none, .submitHashing none, .submitWriting none,
     .hashing (.enter 0), .hashing (.enter 1), .hashing (.run 1), .hashing (.setFinished 1),
     .writing (.enter 0), .hashing (.run 0), .hashing (.setFinished 0), .writing (.run 0),
     .writing (.setFinished 0), .writing (.enter 0), .writing (.run 0),
     .writing (.setFinished 0), .shutdownWriting, .writing (.enter 0), .joinWriting]
    ⟨[[1, 2], [3]], ⟨true, [], [.ready, .ready], [1, 1], [true, true], false⟩,
      ⟨false, [], [.exited], [1, 1], [true, true], true⟩, [⟨12, []⟩, ⟨11, []⟩], [12, 11]⟩
    (by decide)).2.2.2 rfl

